import Mathlib

/-!
Verification of the copy-on-write B+tree storage engine (package `btree`).

This file gives a shallow embedding of `src/database/btree/btree.go` together
with the in-memory page store of the test harness (`NewC`), and proves or
refutes the frozen specification claims about it.

Modelling conventions:
* A Go byte buffer (`BNode []byte`) is a `Buf`: an explicit length together
  with the buffer contents packed base-256, little-endian, into one `Nat`
  (byte `i` of `b` is `b.data / 256 ^ i % 256`).  This is exactly the
  "sequence of bytes" abstraction; the packing merely keeps evaluation inside
  kernel-accelerated `Nat` arithmetic.  Writes store values mod 256, exactly
  as Go truncates to `byte`.
* Go `uint16` arithmetic is `Nat` arithmetic reduced mod 2^16 at every
  operation (`add16`, `sub16`, `mul16`); `uint16` division is `Nat` division.
* `binary.LittleEndian.PutUint16/PutUint64` and the corresponding reads are
  modelled with their bounds checks: Go panics when the slice is too short,
  which (like every fatal outcome) is modelled as `Option.none`.
* Go `copy(dst, src)` truncates silently; it is modelled by `goCopy`.
* `utils.Assert` is code of this repository that is not under `src/` (only its
  callers are). Modelled from the spec: section 7 states that contract
  violations "terminate the operation immediately and loudly (fatal
  assertion)", so a failed assertion is `Option.none`.
* The page-store callbacks are those of the in-memory harness `NewC`
  (`src/unnamed/part_000`): `get` looks a pointer up and asserts presence,
  `new` asserts the encoded size fits a page and that the pointer is fresh,
  `del` asserts presence and removes.  The harness derives pointers from
  memory addresses; the model uses a monotonic counter starting at 1, which
  realises the same contract (nonzero, unique among live pointers — the
  representation the spec itself recommends in section 9).
* Recursion through store pointers (tree height) and the binary-search loop
  are given explicit fuel; exhausted fuel is `none`.  All theorems only ever
  rely on runs where fuel is not exhausted.
-/

namespace Btree

/-- Go `uint16` addition: wraps mod 2^16. -/
def add16 (a b : Nat) : Nat := (a + b) % 65536

/-- Go `uint16` subtraction: wraps mod 2^16 (arguments are `uint16` values). -/
def sub16 (a b : Nat) : Nat := (a + 65536 - b % 65536) % 65536

/-- Go `uint16` multiplication: wraps mod 2^16. -/
def mul16 (a b : Nat) : Nat := (a * b) % 65536

/-- A Go byte slice: its length, and its bytes packed little-endian base 256
into a single natural number.  Byte `i` is `data / 256 ^ i % 256`. -/
structure Buf where
  data : Nat
  len : Nat
deriving DecidableEq

/-- The empty slice (`nil` / `BNode{}`). -/
def bufNil : Buf := ⟨0, 0⟩

/-- `make([]byte, n)`: `n` zero bytes. -/
def bufZeros (n : Nat) : Buf := ⟨0, n⟩

/-- A slice of `n` copies of the byte `v` (`(256^n - 1) / 255` is the number
whose `n` bytes are all 1). -/
def bufRep (n v : Nat) : Buf := ⟨v % 256 * ((256 ^ n - 1) / 255), n⟩

/-- Byte `i` of a buffer (callers perform the Go bounds checks). -/
def byteAt (b : Buf) (i : Nat) : Nat := b.data / 256 ^ i % 256

/-- Overwrite byte `i` with `v % 256`, keeping all other bytes and the length. -/
def setByte (b : Buf) (i v : Nat) : Buf :=
  ⟨b.data % 256 ^ i + v % 256 * 256 ^ i + b.data / 256 ^ (i + 1) * 256 ^ (i + 1), b.len⟩

/-- `b[st:][:n]` for in-bounds `st`, `n`: drop `st` bytes, keep the next `n`. -/
def bufSlice (b : Buf) (st n : Nat) : Buf := ⟨b.data / 256 ^ st % 256 ^ n, n⟩

/-- `binary.LittleEndian.Uint16(node[pos:])`; Go panics when fewer than two
bytes remain, modelled as `none`. -/
def getU16 (b : Buf) (pos : Nat) : Option Nat :=
  if pos + 2 ≤ b.len then some (byteAt b pos + 256 * byteAt b (pos + 1)) else none

/-- `binary.LittleEndian.PutUint16(node[pos:], v)` with its bounds check. -/
def putU16 (b : Buf) (pos v : Nat) : Option Buf :=
  if pos + 2 ≤ b.len then some (setByte (setByte b pos v) (pos + 1) (v / 256))
  else none

/-- `binary.LittleEndian.Uint64(node[pos:])` with its bounds check. -/
def getU64 (b : Buf) (pos : Nat) : Option Nat :=
  if pos + 8 ≤ b.len then
    some (byteAt b pos + 256 * byteAt b (pos + 1) + 256 ^ 2 * byteAt b (pos + 2) +
      256 ^ 3 * byteAt b (pos + 3) + 256 ^ 4 * byteAt b (pos + 4) +
      256 ^ 5 * byteAt b (pos + 5) + 256 ^ 6 * byteAt b (pos + 6) +
      256 ^ 7 * byteAt b (pos + 7))
  else none

/-- `binary.LittleEndian.PutUint64(node[pos:], v)` with its bounds check. -/
def putU64 (b : Buf) (pos v : Nat) : Option Buf :=
  if pos + 8 ≤ b.len then
    some (setByte (setByte (setByte (setByte (setByte (setByte (setByte (setByte
      b pos v) (pos + 1) (v / 256)) (pos + 2) (v / 256 ^ 2)) (pos + 3) (v / 256 ^ 3))
      (pos + 4) (v / 256 ^ 4)) (pos + 5) (v / 256 ^ 5)) (pos + 6) (v / 256 ^ 6))
      (pos + 7) (v / 256 ^ 7))
  else none

/-- Go `copy(dst[pos:], src)`: copies `min src.len (dst.len - pos)` bytes,
never panicking, and never changing the length of `dst`. -/
def goCopy (dst : Buf) (pos : Nat) (src : Buf) : Buf :=
  let n := min src.len (dst.len - pos)
  ⟨dst.data % 256 ^ pos + src.data % 256 ^ n * 256 ^ pos +
    dst.data / 256 ^ (pos + n) * 256 ^ (pos + n), dst.len⟩

/-- The byte-by-byte loop of `bytes.Compare`; `c` counts the positions the
two slices share. -/
def cmpAux (a b : Buf) : Nat → Nat → Int
  | _, 0 => if a.len < b.len then -1 else if b.len < a.len then 1 else 0
  | i, c + 1 =>
    if byteAt a i < byteAt b i then -1
    else if byteAt b i < byteAt a i then 1
    else cmpAux a b (i + 1) c

/-- Go `bytes.Compare`: lexicographic byte comparison. -/
def bytesCompare (a b : Buf) : Int := cmpAux a b 0 (min a.len b.len)

/-! ### Constants (btree.go lines 9-16) -/

def HEADER : Nat := 4
def BTREE_PAGE_SIZE : Nat := 4096
def BTREE_MAX_KEY_SIZE : Nat := 1000
def BTREE_MAX_VALUE_SIZE : Nat := 3000
def BNODE_NODE : Nat := 1
def BNODE_LEAF : Nat := 2

/-! ### Page codec (btree.go lines 18-85) -/

/-- `BNode.btype`. -/
def btype (node : Buf) : Option Nat := getU16 node 0

/-- `BNode.nkeys`. -/
def nkeys (node : Buf) : Option Nat := getU16 node 2

/-- `BNode.setHeader`. -/
def setHeader (node : Buf) (t k : Nat) : Option Buf := do
  let b1 ← putU16 node 0 t
  putU16 b1 2 k

/-- `BNode.getPtr` with its assertion `idx < nkeys`. -/
def getPtr (node : Buf) (idx : Nat) : Option Nat := do
  let nk ← nkeys node
  if idx < nk then getU64 node (add16 HEADER (mul16 8 idx)) else none

/-- `BNode.setPtr` with its assertion `idx < nkeys`. -/
def setPtr (node : Buf) (idx v : Nat) : Option Buf := do
  let nk ← nkeys node
  if idx < nk then putU64 node (add16 HEADER (mul16 8 idx)) v else none

/-- `offsetPos` with its assertion `1 ≤ idx ≤ nkeys`. -/
def offsetPos (node : Buf) (idx : Nat) : Option Nat := do
  let nk ← nkeys node
  if 1 ≤ idx ∧ idx ≤ nk then
    some (add16 (add16 HEADER (mul16 8 nk)) (mul16 2 (sub16 idx 1)))
  else none

/-- `BNode.getOffset`: 0 for index 0, otherwise a stored 16-bit offset. -/
def getOffset (node : Buf) (idx : Nat) : Option Nat :=
  if idx = 0 then some 0
  else do
    let p ← offsetPos node idx
    getU16 node p

/-- `BNode.setOffset`: a no-op for index 0. -/
def setOffset (node : Buf) (idx off : Nat) : Option Buf :=
  if idx = 0 then some node
  else do
    let p ← offsetPos node idx
    putU16 node p off

/-- `BNode.kvPos` with its assertion `idx ≤ nkeys`. -/
def kvPos (node : Buf) (idx : Nat) : Option Nat := do
  let nk ← nkeys node
  if idx ≤ nk then do
    let off ← getOffset node idx
    some (add16 (add16 (add16 HEADER (mul16 8 nk)) (mul16 2 nk)) off)
  else none

/-- `BNode.getKey` with its assertion and Go slicing checks. -/
def getKey (node : Buf) (idx : Nat) : Option Buf := do
  let nk ← nkeys node
  if idx < nk then do
    let pos ← kvPos node idx
    let klen ← getU16 node pos
    let st := add16 pos 4
    if st ≤ node.len ∧ klen ≤ node.len - st then some (bufSlice node st klen)
    else none
  else none

/-- `BNode.getVal` with its assertion and Go slicing checks. -/
def getVal (node : Buf) (idx : Nat) : Option Buf := do
  let nk ← nkeys node
  if idx < nk then do
    let pos ← kvPos node idx
    let klen ← getU16 node pos
    let vlen ← getU16 node (add16 pos 2)
    let st := add16 (add16 pos 4) klen
    if st ≤ node.len ∧ vlen ≤ node.len - st then some (bufSlice node st vlen)
    else none
  else none

/-- `BNode.nbytes`. -/
def nbytes (node : Buf) : Option Nat := do
  let nk ← nkeys node
  kvPos node nk

/-! ### Page store

The in-memory harness `NewC` (`src/unnamed/part_000`) backs the three `BTree`
callbacks with a pointer-keyed table.  `get` asserts the pointer is present;
`new` asserts `nbytes ≤ BTREE_PAGE_SIZE` and that the chosen pointer is not
already occupied; `del` asserts the pointer is occupied and deletes it.
Pointers are modelled by a monotonic counter starting at 1 (nonzero, unique
among live pointers), replacing the harness's memory-address shortcut. -/

structure Store where
  pages : List (Nat × Buf)
  next : Nat
deriving DecidableEq

/-- The `get` callback: dereference a pointer, fatal when absent. -/
def storeGet (st : Store) (p : Nat) : Option Buf := st.pages.lookup p

/-- The `new` callback: allocate a page, fatal when oversized or colliding. -/
def storeNew (st : Store) (b : Buf) : Option (Store × Nat) := do
  let n ← nbytes b
  if n ≤ BTREE_PAGE_SIZE then
    match st.pages.lookup st.next with
    | some _ => none
    | none => some ({ pages := (st.next, b) :: st.pages, next := st.next + 1 }, st.next)
  else none

/-- The `del` callback: deallocate a pointer, fatal when absent. -/
def storeDel (st : Store) (p : Nat) : Option Store :=
  match st.pages.lookup p with
  | some _ => some { st with pages := st.pages.filter (fun e => e.1 != p) }
  | none => none

/-- The `BTree` struct: the root pointer plus (via `Store`) the page table. -/
structure TreeState where
  store : Store
  root : Nat
deriving DecidableEq

/-! ### Lookup (btree.go lines 151-170) -/

/-- The binary-search loop of `nodeLookupLE`, with fuel for the loop counter.
`left`, `right`, `found` and `mid` are `uint16` values. -/
def lookupLoop (node key : Buf) : Nat → Nat → Nat → Nat → Option Nat
  | 0, _, _, _ => none
  | f + 1, left, right, found =>
    if left ≤ right then do
      let mid := add16 left right / 2
      let k ← getKey node mid
      if bytesCompare k key ≤ 0 then lookupLoop node key f (add16 mid 1) right mid
      else lookupLoop node key f left (sub16 mid 1) found
    else some found

/-- `nodeLookupLE`: largest index whose key is ≤ the search key, defaulting
to 0. -/
def nodeLookupLE (node key : Buf) : Option Nat := do
  let nk ← nkeys node
  lookupLoop node key 131072 1 (sub16 nk 1) 0

/-! ### Node construction helpers (btree.go lines 172-294, 342-367) -/

/-- The pointer-copying loop of `nodeAppendRange` (`i` counts up, `r` is the
remaining iteration count). -/
def ptrLoop (old : Buf) (dstNew srcOld : Nat) : Nat → Nat → Buf → Option Buf
  | _, 0, b => some b
  | i, r + 1, b => do
    let p ← getPtr old (add16 srcOld i)
    let b1 ← setPtr b (add16 dstNew i) p
    ptrLoop old dstNew srcOld (i + 1) r b1

/-- The offset-copying loop of `nodeAppendRange` (runs for `i` in `[1, n]`). -/
def offLoop (old : Buf) (dstNew srcOld dstBegin srcBegin : Nat) :
    Nat → Nat → Buf → Option Buf
  | _, 0, b => some b
  | i, r + 1, b => do
    let so ← getOffset old (add16 srcOld i)
    let b1 ← setOffset b (add16 dstNew i) (sub16 (add16 dstBegin so) srcBegin)
    offLoop old dstNew srcOld dstBegin srcBegin (i + 1) r b1

/-- `nodeAppendRange`: copy `n` whole entries from `old` to `new`, with the
two range assertions and the final raw key-value copy. -/
def nodeAppendRange (newb old : Buf) (dstNew srcOld n : Nat) : Option Buf := do
  let nko ← nkeys old
  let nkn ← nkeys newb
  if add16 srcOld n ≤ nko then
    if add16 dstNew n ≤ nkn then
      if n = 0 then some newb
      else do
        let b1 ← ptrLoop old dstNew srcOld 0 n newb
        let dstBegin ← getOffset b1 dstNew
        let srcBegin ← getOffset old srcOld
        let b2 ← offLoop old dstNew srcOld dstBegin srcBegin 1 n b1
        let b0 ← kvPos old srcOld
        let e0 ← kvPos old (add16 srcOld n)
        let pos ← kvPos b2 dstNew
        if pos ≤ b2.len ∧ b0 ≤ e0 ∧ e0 ≤ old.len then
          some (goCopy b2 pos (bufSlice old b0 (e0 - b0)))
        else none
    else none
  else none

/-- `nodeAppendKV`: write pointer, sub-header, key and value at `idx` and
advance the next offset. -/
def nodeAppendKV (newb : Buf) (idx ptr : Nat) (key val : Buf) : Option Buf := do
  let b1 ← setPtr newb idx ptr
  let pos ← kvPos b1 idx
  let b2 ← putU16 b1 pos (key.len % 65536)
  let b3 ← putU16 b2 (add16 pos 2) (val.len % 65536)
  let p4 := add16 pos 4
  if p4 ≤ b3.len then
    let b4 := goCopy b3 p4 key
    let p5 := add16 p4 (key.len % 65536)
    if p5 ≤ b4.len then
      let b5 := goCopy b4 p5 val
      let off ← getOffset b5 idx
      setOffset b5 (add16 idx 1) (add16 off (add16 4 ((key.len + val.len) % 65536)))
    else none
  else none

/-- `leafInsert`: copy a key-value pair into position `idx`. -/
def leafInsert (newb old : Buf) (idx : Nat) (key val : Buf) : Option Buf := do
  let nko ← nkeys old
  let b1 ← setHeader newb BNODE_LEAF (add16 nko 1)
  let b2 ← nodeAppendRange b1 old 0 0 idx
  let b3 ← nodeAppendKV b2 idx 0 key val
  nodeAppendRange b3 old (add16 idx 1) idx (sub16 nko idx)

/-- `leafUpdate` exactly as written in the source (btree.go lines 183-188):
it copies the ranges `[0, idx-1)` and `[idx, end)`. -/
def leafUpdate (newb old : Buf) (idx : Nat) (key val : Buf) : Option Buf := do
  let nko ← nkeys old
  let b1 ← setHeader newb BNODE_LEAF nko
  let b2 ← nodeAppendRange b1 old 0 0 (sub16 idx 1)
  let b3 ← nodeAppendKV b2 idx 0 key val
  nodeAppendRange b3 old idx idx (sub16 nko idx)

/-- `leafDelete`: remove the entry at `idx` from a leaf. -/
def leafDelete (newb old : Buf) (idx : Nat) : Option Buf := do
  let nko ← nkeys old
  let b1 ← setHeader newb BNODE_LEAF (sub16 nko 1)
  let b2 ← nodeAppendRange b1 old 0 0 idx
  nodeAppendRange b2 old idx (add16 idx 1) (sub16 (sub16 nko idx) 1)

/-- `nodeMerge`: merge two nodes into one.  Note the header is always written
with `BNODE_NODE`, whatever the inputs' kinds are. -/
def nodeMerge (newb left right : Buf) : Option Buf := do
  let ln ← nkeys left
  let rn ← nkeys right
  let b1 ← setHeader newb BNODE_NODE (add16 ln rn)
  let b2 ← nodeAppendRange b1 left 0 0 ln
  nodeAppendRange b2 right ln 0 rn

/-- `nodeReplace2Kid` exactly as written (btree.go lines 360-367): the final
range copy starts at `idx+2` but has count `nkeys-idx-1`. -/
def nodeReplace2Kid (newb old : Buf) (idx ptr : Nat) (key : Buf) : Option Buf := do
  let nko ← nkeys old
  let b1 ← setHeader newb BNODE_NODE (sub16 nko 1)
  let b2 ← nodeAppendRange b1 old 0 0 idx
  let b3 ← nodeAppendKV b2 idx ptr key bufNil
  nodeAppendRange b3 old (add16 idx 1) (add16 idx 2) (sub16 (sub16 nko idx) 1)

/-- `nodeSplit2`: split an oversized node by key count at
`rightCount = nkeys/2`; asserts the input is oversized. -/
def nodeSplit2 (left right old : Buf) : Option (Buf × Buf) := do
  let ob ← nbytes old
  if ob > BTREE_PAGE_SIZE then do
    let nk ← nkeys old
    let rightN := nk / 2
    let leftN := sub16 nk rightN
    let t ← btype old
    let t2 ← btype old
    let l1 ← setHeader left t leftN
    let r1 ← setHeader right t2 rightN
    let l2 ← nodeAppendRange l1 old 0 0 leftN
    let r2 ← nodeAppendRange r1 old 0 leftN rightN
    some (l2, r2)
  else none

/-- `nodeSplit3`: split a node into 1 to 3 nodes.  `old[:BTREE_PAGE_SIZE]`
requires the buffer to hold at least a page (Go would panic otherwise). -/
def nodeSplit3 (old : Buf) : Option (Nat × List Buf) := do
  let ob ← nbytes old
  if ob ≤ BTREE_PAGE_SIZE then
    if BTREE_PAGE_SIZE ≤ old.len then some (1, [bufSlice old 0 BTREE_PAGE_SIZE]) else none
  else do
    let left := bufZeros (2 * BTREE_PAGE_SIZE)
    let right := bufZeros BTREE_PAGE_SIZE
    let (l, r) ← nodeSplit2 left right old
    let lb ← nbytes l
    if lb ≤ BTREE_PAGE_SIZE then
      if BTREE_PAGE_SIZE ≤ l.len then some (2, [bufSlice l 0 BTREE_PAGE_SIZE, r]) else none
    else do
      let ll := bufZeros BTREE_PAGE_SIZE
      let mid := bufZeros BTREE_PAGE_SIZE
      let (a, b) ← nodeSplit2 ll mid l
      let ab ← nbytes a
      if ab ≤ BTREE_PAGE_SIZE then some (3, [a, b, r]) else none

/-- The per-kid loop shared by `nodeReplaceKidN` and the root-split loop in
`Insert`: allocate each kid, then append a link keyed by its first key. -/
def kidLoop : Store → Buf → Nat → List Buf → Option (Store × Buf)
  | st, b, _, [] => some (st, b)
  | st, b, i, k :: ks => do
    let (st1, p) ← storeNew st k
    let k0 ← getKey k 0
    let b1 ← nodeAppendKV b i p k0 bufNil
    kidLoop st1 b1 (add16 i 1) ks

/-- `nodeReplaceKidN`: replace the link at `idx` with one link per kid. -/
def nodeReplaceKidN (st : Store) (newb old : Buf) (idx : Nat) (kids : List Buf) :
    Option (Store × Buf) := do
  let inc := kids.length % 65536
  let nko ← nkeys old
  let b1 ← setHeader newb BNODE_NODE (sub16 (add16 nko inc) 1)
  let b2 ← nodeAppendRange b1 old 0 0 idx
  let (st1, b3) ← kidLoop st b2 idx kids
  let b4 ← nodeAppendRange b3 old (add16 idx inc) (add16 idx 1) (sub16 nko (add16 idx 1))
  some (st1, b4)

/-- `shouldMerge`, right-sibling half: tried only when the left sibling is
unavailable or too large. -/
def shouldMergeRight (st : Store) (node : Buf) (idx ub : Nat) : Option (Int × Buf) := do
  let nk ← nkeys node
  if add16 idx 1 < nk then do
    let p ← getPtr node (add16 idx 1)
    let sib ← storeGet st p
    let sb ← nbytes sib
    if sub16 (add16 sb ub) HEADER ≤ BTREE_PAGE_SIZE then some (1, sib) else some (0, bufNil)
  else some (0, bufNil)

/-- `shouldMerge`: decide whether the updated kid must merge with a sibling.
The size arithmetic is `uint16`, exactly as in the source. -/
def shouldMerge (st : Store) (node : Buf) (idx : Nat) (updated : Buf) :
    Option (Int × Buf) := do
  let ub ← nbytes updated
  if ub > BTREE_PAGE_SIZE / 4 then some (0, bufNil)
  else if idx > 0 then do
    let p ← getPtr node (sub16 idx 1)
    let sib ← storeGet st p
    let sb ← nbytes sib
    if sub16 (add16 sb ub) HEADER ≤ BTREE_PAGE_SIZE then some (-1, sib)
    else shouldMergeRight st node idx ub
  else shouldMergeRight st node idx ub

/-! ### Read (btree.go lines 96-102, 296-312) -/

/-- `treeRead`: recursive point lookup; fuel bounds recursion depth. -/
def treeRead : Nat → Store → Buf → Buf → Option (Buf × Bool)
  | 0, _, _, _ => none
  | fuel + 1, st, node, key => do
    let idx ← nodeLookupLE node key
    let t ← btype node
    if t = BNODE_LEAF then do
      let k ← getKey node idx
      if key = k then do
        let v ← getVal node idx
        some (v, true)
      else some (bufNil, false)
    else if t = BNODE_NODE then do
      let p ← getPtr node idx
      let child ← storeGet st p
      treeRead fuel st child key
    else none

/-- `BTree.Read`. -/
def Read (fuel : Nat) (ts : TreeState) (key : Buf) : Option (Buf × Bool) :=
  if ts.root = 0 then some (bufNil, false)
  else do
    let rootNode ← storeGet ts.store ts.root
    treeRead fuel ts.store rootNode key

/-! ### Insert (btree.go lines 104-132, 190-203, 314-340) -/

/-- `treeInsert`: insert a key-value pair into a node; the result may be
oversized (built in a `2*BTREE_PAGE_SIZE` scratch buffer).  The internal-node
branch is `nodeInsert`, inlined at its single call site so that the
definition is structurally recursive on the fuel; `nodeInsert` below is the
same code, as a named definition. -/
def treeInsert : Nat → Store → Buf → Buf → Buf → Option (Store × Buf)
  | 0, _, _, _, _ => none
  | fuel + 1, st, node, key, val => do
    let newNode := bufZeros (2 * BTREE_PAGE_SIZE)
    let idx ← nodeLookupLE node key
    let t ← btype node
    if t = BNODE_LEAF then do
      let k ← getKey node idx
      if key = k then do
        let b ← leafUpdate newNode node idx key val
        some (st, b)
      else do
        let b ← leafInsert newNode node (add16 idx 1) key val
        some (st, b)
    else if t = BNODE_NODE then do
      let kptr ← getPtr node idx
      let child ← storeGet st kptr
      let (st1, knode) ← treeInsert fuel st child key val
      let (_, split) ← nodeSplit3 knode
      let st2 ← storeDel st1 kptr
      nodeReplaceKidN st2 newNode node idx split
    else none

/-- `nodeInsert`: recursive insertion into the kid at `idx`, then split the
result and replace the kid links (the body inlined in `treeInsert`). -/
def nodeInsert (fuel : Nat) (st : Store) (newb node : Buf) (idx : Nat) (key val : Buf) :
    Option (Store × Buf) := do
  let kptr ← getPtr node idx
  let child ← storeGet st kptr
  let (st1, knode) ← treeInsert fuel st child key val
  let (_, split) ← nodeSplit3 knode
  let st2 ← storeDel st1 kptr
  nodeReplaceKidN st2 newb node idx split

/-- `BTree.Insert`: create the first leaf (with the empty sentinel key at
index 0) when the tree is empty, otherwise insert, split, and reroot. -/
def Insert (fuel : Nat) (ts : TreeState) (key val : Buf) : Option TreeState :=
  if ts.root = 0 then do
    let root0 := bufZeros BTREE_PAGE_SIZE
    let b1 ← setHeader root0 BNODE_LEAF 2
    let b2 ← nodeAppendKV b1 0 0 bufNil bufNil
    let b3 ← nodeAppendKV b2 1 0 key val
    let (st1, p) ← storeNew ts.store b3
    some { store := st1, root := p }
  else do
    let rootNode ← storeGet ts.store ts.root
    let (st1, node) ← treeInsert fuel ts.store rootNode key val
    let (nsplit, split) ← nodeSplit3 node
    let st2 ← storeDel st1 ts.root
    if nsplit > 1 then do
      let rootb := bufZeros BTREE_PAGE_SIZE
      let b1 ← setHeader rootb BNODE_NODE nsplit
      let (st3, b2) ← kidLoop st2 b1 0 split
      let (st4, p) ← storeNew st3 b2
      some { store := st4, root := p }
    else
      match split with
      | s0 :: _ => do
        let (st3, p) ← storeNew st2 s0
        some { store := st3, root := p }
      | [] => none

/-! ### Delete (btree.go lines 134-149, 369-446) -/

/-- The part of `nodeDelete` after the recursive call: `st1` and `updated`
are the store and node returned by `treeDelete` on the kid.  Factored out so
that `treeDelete` is structurally recursive on the fuel while `nodeDelete`
below is still a named definition with the source's shape. -/
def nodeDeleteRest (node : Buf) (idx : Nat) (kptr : Nat)
    (st1 : Store) (updated : Buf) : Option (Store × Buf) :=
  if updated.len = 0 then some (st1, bufNil)
  else do
    let st2 ← storeDel st1 kptr
    let newNode := bufZeros BTREE_PAGE_SIZE
    let (dir, sibling) ← shouldMerge st2 node idx updated
    if dir < 0 then do
      let mbuf := bufZeros BTREE_PAGE_SIZE
      let merged ← nodeMerge mbuf sibling updated
      let lp ← getPtr node (sub16 idx 1)
      let st3 ← storeDel st2 lp
      let (st4, mp) ← storeNew st3 merged
      let mk ← getKey merged 0
      let b ← nodeReplace2Kid newNode node (sub16 idx 1) mp mk
      some (st4, b)
    else if dir > 0 then do
      let mbuf := bufZeros BTREE_PAGE_SIZE
      let merged ← nodeMerge mbuf updated sibling
      let rp ← getPtr node (add16 idx 1)
      let st3 ← storeDel st2 rp
      let (st4, mp) ← storeNew st3 merged
      let mk ← getKey merged 0
      let b ← nodeReplace2Kid newNode node idx mp mk
      some (st4, b)
    else do
      let un ← nkeys updated
      if un = 0 then do
        let nn ← nkeys node
        if nn = 1 ∧ idx = 0 then do
          let b ← setHeader newNode BNODE_NODE 0
          some (st2, b)
        else none
      else nodeReplaceKidN st2 newNode node idx [updated]

/-- `treeDelete`: delete a key from the subtree; an empty result buffer
signals "key not found, nothing changed". -/
def treeDelete : Nat → Store → Buf → Buf → Option (Store × Buf)
  | 0, _, _, _ => none
  | fuel + 1, st, node, key => do
    let idx ← nodeLookupLE node key
    let t ← btype node
    if t = BNODE_LEAF then do
      let k ← getKey node idx
      if key = k then do
        let newNode := bufZeros BTREE_PAGE_SIZE
        let b ← leafDelete newNode node idx
        some (st, b)
      else some (st, bufNil)
    else if t = BNODE_NODE then do
      let kptr ← getPtr node idx
      let child ← storeGet st kptr
      let (st1, updated) ← treeDelete fuel st child key
      nodeDeleteRest node idx kptr st1 updated
    else none

/-- `nodeDelete`: recurse into the kid at `idx`, then `nodeDeleteRest`. -/
def nodeDelete (fuel : Nat) (st : Store) (node : Buf) (idx : Nat) (key : Buf) :
    Option (Store × Buf) := do
  let kptr ← getPtr node idx
  let child ← storeGet st kptr
  let (st1, updated) ← treeDelete fuel st child key
  nodeDeleteRest node idx kptr st1 updated

/-- `BTree.Delete`: note there is no `root == 0` guard — the root pointer is
dereferenced unconditionally. -/
def Delete (fuel : Nat) (ts : TreeState) (key : Buf) : Option (TreeState × Bool) := do
  let rootNode ← storeGet ts.store ts.root
  let (st1, node) ← treeDelete fuel ts.store rootNode key
  if node.len = 0 then some ({ store := st1, root := ts.root }, false)
  else do
    let st2 ← storeDel st1 ts.root
    let t ← btype node
    let nk ← nkeys node
    if t = BNODE_NODE ∧ nk = 1 then do
      let p ← getPtr node 0
      some ({ store := st2, root := p }, true)
    else do
      let (st3, p) ← storeNew st2 node
      some ({ store := st3, root := p }, true)

/-! ### Concrete fixtures

Helpers that build concrete pages for witnesses and counterexamples.  They
are test inputs, not part of the source embedding. -/

/-- Concatenate two byte slices. -/
def bufAppend (a b : Buf) : Buf := ⟨a.data + b.data * 256 ^ a.len, a.len + b.len⟩

/-- A 16-bit little-endian field. -/
def le16Buf (v : Nat) : Buf := ⟨v % 65536, 2⟩

/-- A 64-bit little-endian field. -/
def le64Buf (v : Nat) : Buf := ⟨v % 2 ^ 64, 8⟩

/-- One encoded key-value entry: sub-header, key bytes, value bytes. -/
def mkEntry (key val : Buf) : Buf :=
  bufAppend (bufAppend (bufAppend (le16Buf key.len) (le16Buf val.len)) key) val

/-- Encoded size of one entry of the fixture description. -/
def entrySize (e : Nat × Buf × Buf) : Nat := 4 + e.2.1.len + e.2.2.len

/-- The stored offset array: cumulative entry sizes for indices `1..n`. -/
def offList : List (Nat × Buf × Buf) → Nat → Buf
  | [], _ => bufNil
  | e :: es, a => bufAppend (le16Buf (a + entrySize e)) (offList es (a + entrySize e))

/-- The pointer array of a fixture node. -/
def ptrList : List (Nat × Buf × Buf) → Buf
  | [] => bufNil
  | e :: es => bufAppend (le64Buf e.1) (ptrList es)

/-- The key-value region of a fixture node. -/
def kvList : List (Nat × Buf × Buf) → Buf
  | [] => bufNil
  | e :: es => bufAppend (mkEntry e.2.1 e.2.2) (kvList es)

/-- A whole page of `n` bytes holding the given entries
(each entry: child pointer, key, value). -/
def mkNode (t : Nat) (entries : List (Nat × Buf × Buf)) (n : Nat) : Buf :=
  let body := bufAppend (bufAppend (bufAppend (bufAppend
    (le16Buf t) (le16Buf entries.length)) (ptrList entries)) (offList entries 0))
    (kvList entries)
  bufAppend body (bufZeros (n - body.len))

/-- The empty tree over an empty page store. -/
def emptyTree : TreeState := ⟨⟨[], 1⟩, 0⟩

/-- A 1001-byte key (one byte over `BTREE_MAX_KEY_SIZE`). -/
def bigKey : Buf := bufRep 1001 120

/-- A 3001-byte value (one byte over `BTREE_MAX_VALUE_SIZE`). -/
def bigVal : Buf := bufRep 3001 120

/-- The static size check performed once by `init()` (btree.go 448-451):
the only size enforcement in the package. -/
def node1max : Nat := HEADER + 8 + 2 + 4 + BTREE_MAX_KEY_SIZE + BTREE_MAX_VALUE_SIZE

/-- Left leaf fixture for the merge scenario: sentinel plus keys `a`, `b`. -/
def P2 : Buf := mkNode BNODE_LEAF
  [(0, bufNil, bufNil), (0, ⟨97, 1⟩, ⟨49, 1⟩), (0, ⟨98, 1⟩, ⟨50, 1⟩)] BTREE_PAGE_SIZE

/-- Right leaf fixture: keys `c`, `d`. -/
def P3 : Buf := mkNode BNODE_LEAF
  [(0, ⟨99, 1⟩, ⟨51, 1⟩), (0, ⟨100, 1⟩, ⟨52, 1⟩)] BTREE_PAGE_SIZE

/-- Internal root fixture linking the two leaves. -/
def P1 : Buf := mkNode BNODE_NODE
  [(2, bufNil, bufNil), (3, ⟨99, 1⟩, bufNil)] BTREE_PAGE_SIZE

/-- A two-level tree: internal root (pointer 1) over leaves 2 and 3. -/
def mergeTree : TreeState := ⟨⟨[(1, P1), (2, P2), (3, P3)], 4⟩, 1⟩

/-- A value of 3000 bytes (exactly `BTREE_MAX_VALUE_SIZE`). -/
def v3000 : Buf := bufRep 3000 120

/-- A leaf that fits one page: sentinel, `("a", "")`, `("c", v3000)`. -/
def leafC5 : Buf := mkNode BNODE_LEAF
  [(0, bufNil, bufNil), (0, ⟨97, 1⟩, bufNil), (0, ⟨99, 1⟩, v3000)] BTREE_PAGE_SIZE

/-- The leaf left after deleting `c` from `P3`: single entry `("d","4")`. -/
def updLeaf : Buf := mkNode BNODE_LEAF [(0, ⟨100, 1⟩, ⟨52, 1⟩)] BTREE_PAGE_SIZE

/-- A one-leaf tree holding only the key `a` (plus the sentinel). -/
def leafW : Buf := mkNode BNODE_LEAF
  [(0, bufNil, bufNil), (0, ⟨97, 1⟩, ⟨49, 1⟩)] BTREE_PAGE_SIZE

/-- The tree state whose root is `leafW` at pointer 1. -/
def tsW : TreeState := ⟨⟨[(1, leafW)], 2⟩, 1⟩

/-- The page obtained by merging the two leaf fixtures `P2` and `updLeaf`. -/
def mergedW : Buf := (nodeMerge (bufZeros BTREE_PAGE_SIZE) P2 updLeaf).getD bufNil

/-! ### Claim theorems -/

set_option exponentiation.threshold 200000
set_option maxRecDepth 250000

/-- C1: the read-after-write property fails on the code.  The empty key and
`"a"` are pairwise distinct keys, yet after `Insert("a","1")` the call
`Insert("", "2")` aborts with a fatal assertion instead of completing (the
empty key matches the sentinel at index 0, `leafUpdate` computes the range
length `idx-1 = 0-1`, which wraps to 65535 in `uint16`, and the range
assertion in `nodeAppendRange` fails), so the subsequent `Read("")` can
never return `("2", true)` as the claim requires. -/
theorem readAfterWrite_failing_eval :
    (do
      let s1 ← Insert 10 emptyTree ⟨97, 1⟩ ⟨49, 1⟩
      Insert 10 s1 bufNil ⟨50, 1⟩) = none := by decide

/-- C3: `leafUpdate` does not behave as the claim states.  After
`Insert("a","1")` and the updating `Insert("a","2")`, `Read("a")` returns
the old value `"1"` (byte 49), not the new value `"2"` (byte 50): the code
copies `[0, idx-1)` instead of `[0, idx)` and then re-copies the old entries
starting at `idx` over the freshly written value. -/
theorem leafUpdate_failing_eval :
    (do
      let s1 ← Insert 10 emptyTree ⟨97, 1⟩ ⟨49, 1⟩
      let s2 ← Insert 10 s1 ⟨97, 1⟩ ⟨50, 1⟩
      Read 10 s2 ⟨97, 1⟩) = some (⟨49, 1⟩, true) ∧ (⟨49, 1⟩ : Buf) ≠ ⟨50, 1⟩ :=
  ⟨by decide, by decide⟩

/-- C6: the minimum-key invariant is not preserved by `Insert`.  Starting
from the empty tree, the sequence `Insert([1], [9])`, `Insert([1,0], [7])`,
`Insert([1,0], [5,0,0])` (the third call is an update, taking the buggy
`leafUpdate` path, which corrupts the offset array and drops the sentinel)
produces a root leaf whose index-0 key is `[1,0]` while index 1 holds the
readable key `[0]`, and `[0] < [1,0]`: index 0 no longer holds the minimum
key reachable from the node. -/
theorem minKey_failing_eval :
    (do
      let s1 ← Insert 10 emptyTree ⟨1, 1⟩ ⟨9, 1⟩
      let s2 ← Insert 10 s1 ⟨1, 2⟩ ⟨7, 1⟩
      let s3 ← Insert 10 s2 ⟨1, 2⟩ ⟨5, 3⟩
      let nd ← storeGet s3.store s3.root
      let k0 ← getKey nd 0
      let k1 ← getKey nd 1
      some (k0, k1, bytesCompare k1 k0)) = some (⟨1, 2⟩, ⟨0, 1⟩, -1) := by decide

/-- C9: `Delete` on an empty tree (root pointer 0) does not return `false`:
it dereferences pointer 0 through the store's `get` callback, whose
presence assertion fails fatally, because pointer 0 was never allocated. -/
theorem deleteEmptyTree_fatal (fuel : Nat) (ts : TreeState) (key : Buf)
    (hroot : ts.root = 0) (hget : storeGet ts.store 0 = none) :
    Delete fuel ts key = none := by
  simp [Delete, hroot, hget]

/-- C9 witness: the fatal dereference on the concrete empty tree. -/
theorem deleteEmptyTree_fatal_witness : Delete 10 emptyTree ⟨120, 1⟩ = none :=
  deleteEmptyTree_fatal 10 emptyTree ⟨120, 1⟩ rfl rfl

/-- C4 counterexample: `Insert` with a key longer than 1000 bytes does not
fail with a fatal contract violation — no size check exists anywhere on the
insert path.  Inserting a 1001-byte key into the empty tree succeeds and the
key is subsequently readable. -/
theorem sizeLimit_counterexample :
    (do
      let s ← Insert 10 emptyTree bigKey bufNil
      Read 10 s bigKey) = some (bufNil, true) ∧ BTREE_MAX_KEY_SIZE < bigKey.len :=
  ⟨by decide, by decide⟩

/-- C4 amended: the size limits are not enforced per call.  `Insert` with a
1001-byte key, or with a 3001-byte value, proceeds normally and the entry is
readable afterwards (the only failure mode would be the allocator's
page-size assertion, not a key/value length check); the sole startup
enforcement is `init()`'s static assertion `node1max < BTREE_PAGE_SIZE`,
which holds. -/
theorem sizeLimit_amended :
    node1max < BTREE_PAGE_SIZE ∧
    (do
      let s ← Insert 10 emptyTree bigKey bufNil
      Read 10 s bigKey) = some (bufNil, true) ∧
    (do
      let s ← Insert 10 emptyTree ⟨97, 1⟩ bigVal
      Read 10 s ⟨97, 1⟩) = some (bigVal, true) :=
  ⟨by decide, by decide, by decide⟩

/-- C2: merge correctness fails on the code.  In `mergeTree`, the keys `c`
and `a` are both readable; deleting the present key `c` shrinks leaf 3 to a
single small entry, and `shouldMerge` selects the left sibling (direction
-1), exactly the claim's hypothesis — but the `Delete` aborts with a fatal
assertion (`nodeReplace2Kid` copies old entries starting at `idx+2` with
count `nkeys-idx-1`, one more than exist) instead of returning `true` and
keeping the other keys readable. -/
theorem mergeDelete_failing_eval :
    Read 10 mergeTree ⟨99, 1⟩ = some (⟨51, 1⟩, true) ∧
    Read 10 mergeTree ⟨97, 1⟩ = some (⟨49, 1⟩, true) ∧
    (do
      let upd ← leafDelete (bufZeros BTREE_PAGE_SIZE) P3 0
      let st2 ← storeDel mergeTree.store 3
      Option.map Prod.fst (shouldMerge st2 P1 1 upd)) = some (-1) ∧
    Delete 10 mergeTree ⟨99, 1⟩ = none :=
  ⟨by decide, by decide, by decide, by decide⟩

/-- C5 counterexample: a node produced by the insert path (inserting
`("d", v3000)` into `leafC5` via `treeInsert`) has encoded size 6063 ≤
2·PAGE_SIZE and every entry within the key/value limits, yet `nodeSplit3`
returns 2 nodes of which the second has encoded size 6034 > PAGE_SIZE: the
promised bound on every output after at most two splits does not hold. -/
theorem split3_counterexample :
    (do
      let (_, big) ← treeInsert 1 emptyTree.store leafC5 ⟨100, 1⟩ v3000
      let bb ← nbytes big
      let (n, outs) ← nodeSplit3 big
      match outs with
      | [_, r] => do
        let rb ← nbytes r
        some (bb, n, rb)
      | _ => none) = some (6063, 2, 6034) ∧ 6063 ≤ 2 * BTREE_PAGE_SIZE ∧
      BTREE_PAGE_SIZE < 6034 :=
  ⟨by decide, by decide, by decide⟩

theorem add16_small {a b : Nat} (h : a + b < 65536) : add16 a b = a + b :=
  Nat.mod_eq_of_lt h

theorem sub16_small {a b : Nat} (hba : b ≤ a) (ha : a < 65536) : sub16 a b = a - b := by
  unfold sub16
  omega

theorem shouldMerge_noMerge (st : Store) (node updated : Buf) (idx ub : Nat)
    (hub : nbytes updated = some ub) (h : BTREE_PAGE_SIZE / 4 < ub) :
    shouldMerge st node idx updated = some (0, bufNil) := by
  simp only [shouldMerge, hub, Option.bind_eq_bind, Option.some_bind, BTREE_PAGE_SIZE]
  rw [if_pos (by simp only [BTREE_PAGE_SIZE] at h; omega : ub > 4096 / 4)]

theorem shouldMerge_left (st : Store) (node updated : Buf) (idx ub : Nat)
    (hub : nbytes updated = some ub)
    (lp : Nat) (lsib : Buf) (lsb : Nat)
    (hq : ub ≤ BTREE_PAGE_SIZE / 4) (hpos : 0 < idx)
    (hlp : getPtr node (sub16 idx 1) = some lp)
    (hlsib : storeGet st lp = some lsib)
    (hlsb : nbytes lsib = some lsb) (hle : lsb ≤ BTREE_PAGE_SIZE)
    (h4 : HEADER ≤ lsb + ub)
    (htest : lsb + ub - HEADER ≤ BTREE_PAGE_SIZE) :
    shouldMerge st node idx updated = some (-1, lsib) := by
  have hadd : add16 lsb ub = lsb + ub := add16_small (by
    simp only [BTREE_PAGE_SIZE] at hq hle; omega)
  have hsub : sub16 (lsb + ub) HEADER = lsb + ub - HEADER := sub16_small
    (by simp only [HEADER] at h4 ⊢; omega)
    (by simp only [BTREE_PAGE_SIZE] at hq hle; omega)
  simp only [shouldMerge, hub, Option.bind_eq_bind, Option.some_bind]
  rw [if_neg (by simp only [BTREE_PAGE_SIZE] at hq ⊢; omega), if_pos hpos,
    hlp, Option.some_bind, hlsib, Option.some_bind, hlsb, Option.some_bind,
    hadd, hsub, if_pos htest]

theorem shouldMerge_toRight (st : Store) (node updated : Buf) (idx ub : Nat)
    (hub : nbytes updated = some ub)
    (hq : ub ≤ BTREE_PAGE_SIZE / 4)
    (hleft : idx = 0 ∨ ∃ lp lsib lsb, getPtr node (sub16 idx 1) = some lp ∧
      storeGet st lp = some lsib ∧ nbytes lsib = some lsb ∧ HEADER ≤ lsb + ub ∧
      lsb ≤ BTREE_PAGE_SIZE ∧ BTREE_PAGE_SIZE < lsb + ub - HEADER) :
    shouldMerge st node idx updated = shouldMergeRight st node idx ub := by
  simp only [shouldMerge, hub, Option.bind_eq_bind, Option.some_bind]
  rw [if_neg (by simp only [BTREE_PAGE_SIZE] at hq ⊢; omega)]
  rcases hleft with h0 | ⟨lp, lsib, lsb, hlp, hlsib, hlsb, h4, hle, hbig⟩
  · rw [if_neg (by omega)]
  · have hadd : add16 lsb ub = lsb + ub := add16_small (by
      simp only [BTREE_PAGE_SIZE] at hq hle; omega)
    have hsub : sub16 (lsb + ub) HEADER = lsb + ub - HEADER := sub16_small
      (by simp only [HEADER] at h4 ⊢; omega)
      (by simp only [BTREE_PAGE_SIZE] at hq hle; omega)
    by_cases hpos : 0 < idx
    · rw [if_pos hpos, hlp, Option.some_bind, hlsib, Option.some_bind, hlsb,
        Option.some_bind, hadd, hsub, if_neg (by omega)]
    · rw [if_neg hpos]

theorem shouldMergeRight_sel (st : Store) (node : Buf) (idx ub nk : Nat)
    (hnk : nkeys node = some nk)
    (rp : Nat) (rsib : Buf) (rsb : Nat)
    (hr : idx + 1 < nk) (hi : idx + 1 < 65536)
    (hrp : getPtr node (add16 idx 1) = some rp)
    (hrsib : storeGet st rp = some rsib)
    (hrsb : nbytes rsib = some rsb) (hle : rsb ≤ BTREE_PAGE_SIZE)
    (hq : ub ≤ BTREE_PAGE_SIZE / 4) (h4 : HEADER ≤ rsb + ub)
    (htest : rsb + ub - HEADER ≤ BTREE_PAGE_SIZE) :
    shouldMergeRight st node idx ub = some (1, rsib) := by
  have haddi : add16 idx 1 = idx + 1 := add16_small hi
  have hadd : add16 rsb ub = rsb + ub := add16_small (by
    simp only [BTREE_PAGE_SIZE] at hq hle; omega)
  have hsub : sub16 (rsb + ub) HEADER = rsb + ub - HEADER := sub16_small
    (by simp only [HEADER] at h4 ⊢; omega)
    (by simp only [BTREE_PAGE_SIZE] at hq hle; omega)
  rw [haddi] at hrp
  simp only [shouldMergeRight, hnk, Option.bind_eq_bind, Option.some_bind, haddi]
  rw [if_pos hr, hrp, Option.some_bind, hrsib, Option.some_bind, hrsb,
    Option.some_bind, hadd, hsub, if_pos htest]

theorem shouldMergeRight_none (st : Store) (node : Buf) (idx ub nk : Nat)
    (hnk : nkeys node = some nk) (hi : idx + 1 < 65536)
    (hr : nk ≤ idx + 1) :
    shouldMergeRight st node idx ub = some (0, bufNil) := by
  have haddi : add16 idx 1 = idx + 1 := add16_small hi
  simp only [shouldMergeRight, hnk, Option.bind_eq_bind, Option.some_bind, haddi]
  rw [if_neg (by omega)]

theorem shouldMergeRight_tooBig (st : Store) (node : Buf) (idx ub nk : Nat)
    (hnk : nkeys node = some nk) (hi : idx + 1 < 65536)
    (rp : Nat) (rsib : Buf) (rsb : Nat)
    (hr : idx + 1 < nk)
    (hrp : getPtr node (add16 idx 1) = some rp)
    (hrsib : storeGet st rp = some rsib)
    (hrsb : nbytes rsib = some rsb) (hle : rsb ≤ BTREE_PAGE_SIZE)
    (hq : ub ≤ BTREE_PAGE_SIZE / 4) (h4 : HEADER ≤ rsb + ub)
    (hbig : BTREE_PAGE_SIZE < rsb + ub - HEADER) :
    shouldMergeRight st node idx ub = some (0, bufNil) := by
  have haddi : add16 idx 1 = idx + 1 := add16_small hi
  have hadd : add16 rsb ub = rsb + ub := add16_small (by
    simp only [BTREE_PAGE_SIZE] at hq hle; omega)
  have hsub : sub16 (rsb + ub) HEADER = rsb + ub - HEADER := sub16_small
    (by simp only [HEADER] at h4 ⊢; omega)
    (by simp only [BTREE_PAGE_SIZE] at hq hle; omega)
  rw [haddi] at hrp
  simp only [shouldMergeRight, hnk, Option.bind_eq_bind, Option.some_bind, haddi]
  rw [if_pos hr, hrp, Option.some_bind, hrsib, Option.some_bind, hrsb,
    Option.some_bind, hadd, hsub, if_neg (by omega)]

/-- C8: the decision rule of `shouldMerge`, as the claim states it.  Writing
`PAGE` for `BTREE_PAGE_SIZE` and `sz(x)` for the encoded size `nbytes`:
(1) whenever `sz(updated) > PAGE/4`, no merge is attempted; otherwise
(2) the left sibling is preferred (`idx > 0`) and selected exactly when
`sz(left) + sz(updated) - HEADER ≤ PAGE`; (3) the right sibling is tested
(`idx+1 < keyCount`) under the same size test only when the left sibling is
unavailable or too large; and (4) when neither sibling qualifies the result
is no-merge.  The size-bound hypotheses on the fetched siblings express the
page-store contract (stored pages fit a page), under which the `uint16`
arithmetic of the source cannot wrap. -/
theorem getPtr_lt {node : Buf} {j p nk : Nat} (hnk : nkeys node = some nk)
    (h : getPtr node j = some p) : j < nk := by
  simp only [getPtr, hnk, Option.bind_eq_bind, Option.some_bind] at h
  by_contra hcon
  rw [if_neg hcon] at h
  exact Option.noConfusion h

theorem shouldMerge_spec (st : Store) (node updated : Buf) (idx nk ub : Nat)
    (hnk : nkeys node = some nk) (hnk16 : nk < 65536) (hidx : idx < nk)
    (hub : nbytes updated = some ub) :
    (BTREE_PAGE_SIZE / 4 < ub → shouldMerge st node idx updated = some (0, bufNil)) ∧
    (∀ lp lsib lsb, ub ≤ BTREE_PAGE_SIZE / 4 → 0 < idx →
      getPtr node (sub16 idx 1) = some lp → storeGet st lp = some lsib →
      nbytes lsib = some lsb → HEADER ≤ lsb + ub → lsb ≤ BTREE_PAGE_SIZE →
      lsb + ub - HEADER ≤ BTREE_PAGE_SIZE →
      shouldMerge st node idx updated = some (-1, lsib)) ∧
    (∀ rp rsib rsb, ub ≤ BTREE_PAGE_SIZE / 4 →
      (idx = 0 ∨ ∃ lp lsib lsb, getPtr node (sub16 idx 1) = some lp ∧
        storeGet st lp = some lsib ∧ nbytes lsib = some lsb ∧ HEADER ≤ lsb + ub ∧
        lsb ≤ BTREE_PAGE_SIZE ∧ BTREE_PAGE_SIZE < lsb + ub - HEADER) →
      idx + 1 < nk →
      getPtr node (add16 idx 1) = some rp → storeGet st rp = some rsib →
      nbytes rsib = some rsb → HEADER ≤ rsb + ub → rsb ≤ BTREE_PAGE_SIZE →
      rsb + ub - HEADER ≤ BTREE_PAGE_SIZE →
      shouldMerge st node idx updated = some (1, rsib)) ∧
    (∀ _u : Unit, ub ≤ BTREE_PAGE_SIZE / 4 →
      (idx = 0 ∨ ∃ lp lsib lsb, getPtr node (sub16 idx 1) = some lp ∧
        storeGet st lp = some lsib ∧ nbytes lsib = some lsb ∧ HEADER ≤ lsb + ub ∧
        lsb ≤ BTREE_PAGE_SIZE ∧ BTREE_PAGE_SIZE < lsb + ub - HEADER) →
      (nk ≤ idx + 1 ∨ ∃ rp rsib rsb, getPtr node (add16 idx 1) = some rp ∧
        storeGet st rp = some rsib ∧ nbytes rsib = some rsb ∧ HEADER ≤ rsb + ub ∧
        rsb ≤ BTREE_PAGE_SIZE ∧ BTREE_PAGE_SIZE < rsb + ub - HEADER) →
      shouldMerge st node idx updated = some (0, bufNil)) := by
  refine ⟨fun h => shouldMerge_noMerge st node updated idx ub hub h, ?_, ?_, ?_⟩
  · intro lp lsib lsb hq hpos hlp hlsib hlsb h4 hle htest
    exact shouldMerge_left st node updated idx ub hub lp lsib lsb hq hpos hlp
      hlsib hlsb hle h4 htest
  · intro rp rsib rsb hq hleft hr hrp hrsib hrsb h4 hle htest
    rw [shouldMerge_toRight st node updated idx ub hub hq hleft]
    exact shouldMergeRight_sel st node idx ub nk hnk rp rsib rsb hr
      (by omega) hrp hrsib hrsb hle hq h4 htest
  · intro _ hq hleft hright
    rw [shouldMerge_toRight st node updated idx ub hub hq hleft]
    rcases hright with hnone | ⟨rp, rsib, rsb, hrp, hrsib, hrsb, h4, hle, hbig⟩
    · exact shouldMergeRight_none st node idx ub nk hnk (by omega) hnone
    · have hlt : add16 idx 1 < nk := getPtr_lt hnk hrp
      have haddi : add16 idx 1 = idx + 1 := add16_small (by omega)
      exact shouldMergeRight_tooBig st node idx ub nk hnk (by omega) rp rsib rsb
        (haddi ▸ hlt) hrp hrsib hrsb hle hq h4 hbig

/-- C8 witness: on the concrete two-leaf parent `P1` with the post-delete
right leaf as updated child, the rule selects the left sibling `P2`. -/
theorem shouldMerge_spec_witness :
    shouldMerge ⟨[(2, P2)], 4⟩ P1 1 updLeaf = some (-1, P2) :=
  (shouldMerge_spec ⟨[(2, P2)], 4⟩ P1 updLeaf 1 2 20 (by decide) (by decide)
      (by decide) (by decide)).2.1 2 P2 50 (by decide) (by decide) (by decide)
      (by decide) (by decide) (by decide) (by decide) (by decide)

theorem treeDelete_of_read_notfound :
    ∀ (fuel : Nat) (st : Store) (node key v : Buf),
      treeRead fuel st node key = some (v, false) →
      treeDelete fuel st node key = some (st, bufNil) := by
  intro fuel
  induction fuel with
  | zero =>
    intro st node key v h
    simp [treeRead] at h
  | succ f ih =>
    intro st node key v h
    rw [treeRead] at h
    rw [treeDelete]
    simp only [Option.bind_eq_bind] at h
    rw [Option.bind_eq_some] at h
    obtain ⟨idx, hidx, h⟩ := h
    rw [Option.bind_eq_some] at h
    obtain ⟨t, ht, h⟩ := h
    simp only [Option.bind_eq_bind, hidx, ht, Option.some_bind]
    by_cases ht2 : t = BNODE_LEAF
    · rw [if_pos ht2] at h ⊢
      rw [Option.bind_eq_some] at h
      obtain ⟨k, hk, h⟩ := h
      simp only [hk, Option.some_bind]
      by_cases hkey : key = k
      · rw [if_pos hkey] at h
        rw [Option.bind_eq_some] at h
        obtain ⟨w, hw, h⟩ := h
        simp at h
      · rw [if_neg hkey] at h ⊢
    · rw [if_neg ht2] at h ⊢
      by_cases ht1 : t = BNODE_NODE
      · rw [if_pos ht1] at h ⊢
        rw [Option.bind_eq_some] at h
        obtain ⟨p, hp, h⟩ := h
        rw [Option.bind_eq_some] at h
        obtain ⟨child, hc, h⟩ := h
        simp only [hp, hc, Option.some_bind]
        rw [ih st child key v h]
        simp only [Option.some_bind]
        simp [nodeDeleteRest, bufNil]
      · rw [if_neg ht1] at h
        simp at h

/-- C7 counterexample: the claim quantifies over every tree, but on the
empty tree (root pointer 0, a tree in which no key is present — `Read`
reports not-found for every key) `Delete` does not return `false`: it dies
dereferencing pointer 0. -/
theorem deleteAbsent_counterexample :
    Read 10 emptyTree ⟨121, 1⟩ = some (bufNil, false) ∧
    Delete 10 emptyTree ⟨121, 1⟩ = none :=
  ⟨by decide, by decide⟩

/-- C7 amended: for every tree with a NONZERO root pointer and every key
that is not present (`Read` reports not-found), `Delete` returns `false`
and leaves the tree completely unchanged — the same store (so no page is
allocated or deallocated) and the same root pointer. -/
theorem deleteAbsent_amended (fuel : Nat) (ts : TreeState) (key v : Buf)
    (hroot : ts.root ≠ 0) (hread : Read fuel ts key = some (v, false)) :
    Delete fuel ts key = some (ts, false) := by
  unfold Read at hread
  rw [if_neg hroot] at hread
  simp only [Option.bind_eq_bind] at hread
  rw [Option.bind_eq_some] at hread
  obtain ⟨rootNode, hrn, hread⟩ := hread
  unfold Delete
  simp only [Option.bind_eq_bind, hrn, Option.some_bind]
  rw [treeDelete_of_read_notfound fuel ts.store rootNode key v hread]
  simp only [Option.some_bind]
  rfl

/-- C7 witness: deleting the absent key `b` from the one-leaf tree `tsW`
returns `false` and the unchanged state. -/
theorem deleteAbsent_amended_witness :
    Delete 10 tsW ⟨98, 1⟩ = some (tsW, false) :=
  deleteAbsent_amended 10 tsW ⟨98, 1⟩ bufNil (by decide) (by decide)

theorem pow256_pos (k : Nat) : 0 < 256 ^ k := pow_pos (by norm_num) k

theorem three_term_mod {A B C m p q : Nat} (hp : m ∣ p) (hq : m ∣ q) :
    (A + B * p + C * q) % m = A % m := by
  obtain ⟨c, rfl⟩ := hp
  obtain ⟨d, rfl⟩ := hq
  rw [show B * (m * c) = B * c * m by ring, show C * (m * d) = C * d * m by ring,
    Nat.add_mul_mod_self_right, Nat.add_mul_mod_self_right]

theorem mod_pow_mod {x j k : Nat} (h : j ≤ k) : x % 256 ^ k % 256 ^ j = x % 256 ^ j :=
  Nat.mod_mod_of_dvd x (pow_dvd_pow 256 h)

theorem mod_eq_mono {a b j k : Nat} (h : a % 256 ^ k = b % 256 ^ k) (hj : j ≤ k) :
    a % 256 ^ j = b % 256 ^ j := by
  rw [← mod_pow_mod hj (x := a), h, mod_pow_mod hj]

theorem addLowHigh_div {D C p m : Nat} (hD : D < 256 ^ p) (hpm : p ≤ m) :
    (D + C * 256 ^ p) / 256 ^ m = C / 256 ^ (m - p) := by
  rw [show (256 : Nat) ^ m = 256 ^ p * 256 ^ (m - p) by
    rw [← pow_add]; congr 1; omega]
  rw [← Nat.div_div_eq_div_mul, Nat.add_mul_div_right _ _ (pow256_pos p),
    Nat.div_eq_of_lt hD, Nat.zero_add]

theorem setByte_len (b : Buf) (i v : Nat) : (setByte b i v).len = b.len := rfl

theorem setByte_mod {k i : Nat} (b : Buf) (v : Nat) (h : k ≤ i) :
    (setByte b i v).data % 256 ^ k = b.data % 256 ^ k := by
  show (b.data % 256 ^ i + v % 256 * 256 ^ i + _ * 256 ^ (i + 1)) % 256 ^ k = _
  rw [three_term_mod (pow_dvd_pow 256 h) (pow_dvd_pow 256 (by omega)), mod_pow_mod h]

theorem setByte_div {m i : Nat} (b : Buf) (v : Nat) (h : i + 1 ≤ m) :
    (setByte b i v).data / 256 ^ m = b.data / 256 ^ m := by
  show (b.data % 256 ^ i + v % 256 * 256 ^ i + b.data / 256 ^ (i + 1) * 256 ^ (i + 1)) /
      256 ^ m = _
  have hD : b.data % 256 ^ i + v % 256 * 256 ^ i < 256 ^ (i + 1) := by
    have h1 : b.data % 256 ^ i < 256 ^ i := Nat.mod_lt _ (pow256_pos i)
    have h2 : v % 256 < 256 := Nat.mod_lt _ (by norm_num)
    have : v % 256 * 256 ^ i ≤ 255 * 256 ^ i := by
      exact Nat.mul_le_mul_right _ (by omega)
    rw [pow_succ]
    omega
  rw [addLowHigh_div hD h, Nat.div_div_eq_div_mul, ← pow_add]
  congr 2
  omega

theorem byteAt_mod_form (b : Buf) (i : Nat) :
    byteAt b i = b.data % 256 ^ (i + 1) / 256 ^ i := by
  rw [byteAt, pow_succ, Nat.mod_mul_right_div_self]

theorem byteAt_eq_of_mod_eq {a b : Buf} {k i : Nat}
    (h : a.data % 256 ^ k = b.data % 256 ^ k) (hik : i + 1 ≤ k) :
    byteAt a i = byteAt b i := by
  rw [byteAt_mod_form, byteAt_mod_form, mod_eq_mono h hik]

theorem byteAt_eq_of_div_eq {a b : Buf} {m i : Nat}
    (h : a.data / 256 ^ m = b.data / 256 ^ m) (him : m ≤ i) :
    byteAt a i = byteAt b i := by
  unfold byteAt
  rw [show (256 : Nat) ^ i = 256 ^ m * 256 ^ (i - m) by rw [← pow_add]; congr 1; omega,
    ← Nat.div_div_eq_div_mul, ← Nat.div_div_eq_div_mul, h]

theorem setByte_byteAt_self (b : Buf) (i v : Nat) :
    byteAt (setByte b i v) i = v % 256 := by
  unfold byteAt setByte
  simp only
  rw [show b.data % 256 ^ i + v % 256 * 256 ^ i + b.data / 256 ^ (i + 1) * 256 ^ (i + 1) =
    b.data % 256 ^ i + (v % 256 + b.data / 256 ^ (i + 1) * 256) * 256 ^ i by
      rw [pow_succ]; ring]
  rw [Nat.add_mul_div_right _ _ (pow256_pos i),
    Nat.div_eq_of_lt (Nat.mod_lt _ (pow256_pos i)), Nat.zero_add,
    Nat.add_mul_mod_self_right, Nat.mod_mod_of_dvd _ (dvd_refl 256)]

theorem getU16_lt {b : Buf} {pos v : Nat} (h : getU16 b pos = some v) : v < 65536 := by
  unfold getU16 at h
  split at h
  · injection h with h
    have h1 : byteAt b pos < 256 := Nat.mod_lt _ (by norm_num)
    have h2 : byteAt b (pos + 1) < 256 := Nat.mod_lt _ (by norm_num)
    omega
  · exact Option.noConfusion h

theorem putU16_mod (k : Nat) {b b2 : Buf} {pos v : Nat} (h : putU16 b pos v = some b2)
    (hk : k ≤ pos) : b2.data % 256 ^ k = b.data % 256 ^ k ∧ b2.len = b.len := by
  unfold putU16 at h
  split at h
  · injection h with h
    subst h
    exact ⟨by rw [setByte_mod _ _ (by omega), setByte_mod _ _ hk], rfl⟩
  · exact Option.noConfusion h

theorem putU16_div (m : Nat) {b b2 : Buf} {pos v : Nat} (h : putU16 b pos v = some b2)
    (hm : pos + 2 ≤ m) : b2.data / 256 ^ m = b.data / 256 ^ m := by
  unfold putU16 at h
  split at h
  · injection h with h
    subst h
    rw [setByte_div _ _ (by omega), setByte_div _ _ (by omega)]
  · exact Option.noConfusion h

theorem putU64_mod (k : Nat) {b b2 : Buf} {pos v : Nat} (h : putU64 b pos v = some b2)
    (hk : k ≤ pos) : b2.data % 256 ^ k = b.data % 256 ^ k ∧ b2.len = b.len := by
  unfold putU64 at h
  split at h
  · injection h with h
    subst h
    refine ⟨?_, rfl⟩
    rw [setByte_mod _ _ (by omega), setByte_mod _ _ (by omega),
      setByte_mod _ _ (by omega), setByte_mod _ _ (by omega),
      setByte_mod _ _ (by omega), setByte_mod _ _ (by omega),
      setByte_mod _ _ (by omega), setByte_mod _ _ hk]
  · exact Option.noConfusion h

theorem putU64_div (m : Nat) {b b2 : Buf} {pos v : Nat} (h : putU64 b pos v = some b2)
    (hm : pos + 8 ≤ m) : b2.data / 256 ^ m = b.data / 256 ^ m := by
  unfold putU64 at h
  split at h
  · injection h with h
    subst h
    rw [setByte_div _ _ (by omega), setByte_div _ _ (by omega),
      setByte_div _ _ (by omega), setByte_div _ _ (by omega),
      setByte_div _ _ (by omega), setByte_div _ _ (by omega),
      setByte_div _ _ (by omega), setByte_div _ _ (by omega)]
  · exact Option.noConfusion h

theorem getU16_putU16_self {b b2 : Buf} {pos v : Nat} (h : putU16 b pos v = some b2) :
    getU16 b2 pos = some (v % 65536) := by
  have hlen : pos + 2 ≤ b.len := by
    unfold putU16 at h
    split at h
    · assumption
    · exact Option.noConfusion h
  have hb2 : b2 = setByte (setByte b pos v) (pos + 1) (v / 256) := by
    unfold putU16 at h
    rw [if_pos hlen] at h
    exact (Option.some.injEq _ _).mp h.symm
  have h0 : byteAt b2 pos = v % 256 := by
    rw [hb2, byteAt_eq_of_mod_eq (setByte_mod _ _ (le_refl (pos + 1))) (by omega),
      setByte_byteAt_self]
  have h1 : byteAt b2 (pos + 1) = v / 256 % 256 := by
    rw [hb2, setByte_byteAt_self]
  have hl2 : b2.len = b.len := by rw [hb2, setByte_len, setByte_len]
  unfold getU16
  rw [if_pos (by omega : pos + 2 ≤ b2.len), h0, h1]
  congr 1
  omega

theorem getU16_congr {a b : Buf} {pos k : Nat}
    (hm : a.data % 256 ^ k = b.data % 256 ^ k) (hl : a.len = b.len)
    (hp : pos + 2 ≤ k) : getU16 a pos = getU16 b pos := by
  unfold getU16
  rw [hl, byteAt_eq_of_mod_eq hm (by omega), byteAt_eq_of_mod_eq hm (by omega)]

theorem getU16_congr_div {a b : Buf} {pos m : Nat}
    (hm : a.data / 256 ^ m = b.data / 256 ^ m) (hl : a.len = b.len)
    (hp : m ≤ pos) : getU16 a pos = getU16 b pos := by
  unfold getU16
  rw [hl, byteAt_eq_of_div_eq hm (by omega), byteAt_eq_of_div_eq hm (by omega)]

theorem nkeys_congr {a b : Buf} (hm : a.data % 256 ^ 4 = b.data % 256 ^ 4)
    (hl : a.len = b.len) : nkeys a = nkeys b :=
  getU16_congr hm hl (by omega)

theorem btype_congr {a b : Buf} (hm : a.data % 256 ^ 4 = b.data % 256 ^ 4)
    (hl : a.len = b.len) : btype a = btype b :=
  getU16_congr hm hl (by omega)

/-- Reading the header after `setHeader`: the two fields come back mod 2^16,
and only the first four bytes changed. -/
theorem setHeader_facts {b b2 : Buf} {t k : Nat} (h : setHeader b t k = some b2) :
    b2.len = b.len ∧ btype b2 = some (t % 65536) ∧ nkeys b2 = some (k % 65536) ∧
      b2.data / 256 ^ 4 = b.data / 256 ^ 4 := by
  unfold setHeader at h
  simp only [Option.bind_eq_bind] at h
  rw [Option.bind_eq_some] at h
  obtain ⟨b1, h1, h2⟩ := h
  have hb1 := getU16_putU16_self h1
  have hb2 := getU16_putU16_self h2
  have hl1 : b1.len = b.len := (putU16_mod 0 h1 (Nat.zero_le 0)).2
  have hl2 : b2.len = b1.len := (putU16_mod 0 h2 (Nat.zero_le 2)).2
  refine ⟨by omega, ?_, hb2, ?_⟩
  · unfold btype
    rw [getU16_congr (putU16_mod 2 h2 (le_refl 2)).1 hl2 (by omega)]
    exact hb1
  · rw [putU16_div 4 h2 (by omega), putU16_div 4 h1 (by omega)]

theorem setPtr_facts {b b2 : Buf} {idx p nk : Nat} (hnk : nkeys b = some nk)
    (hnk4 : nk ≤ 4096) (h : setPtr b idx p = some b2) :
    b2.len = b.len ∧ b2.data % 256 ^ 4 = b.data % 256 ^ 4 ∧
      b2.data / 256 ^ (4 + 8 * nk) = b.data / 256 ^ (4 + 8 * nk) ∧ idx < nk := by
  unfold setPtr at h
  simp only [Option.bind_eq_bind, hnk, Option.some_bind] at h
  split at h
  case isTrue hlt =>
    have hpos : add16 HEADER (mul16 8 idx) = 4 + 8 * idx := by
      unfold add16 mul16 HEADER
      omega
    rw [hpos] at h
    exact ⟨(putU64_mod 4 h (by omega)).2, (putU64_mod 4 h (by omega)).1,
      putU64_div (4 + 8 * nk) h (by omega), hlt⟩
  case isFalse => exact Option.noConfusion h

theorem setOffset_facts {b b2 : Buf} {idx off nk : Nat} (hnk : nkeys b = some nk)
    (hnk4 : nk ≤ 4096) (h : setOffset b idx off = some b2) :
    b2.len = b.len ∧
      b2.data % 256 ^ (4 + 8 * nk + 2 * (idx - 1)) =
        b.data % 256 ^ (4 + 8 * nk + 2 * (idx - 1)) ∧
      b2.data / 256 ^ (4 + 10 * nk) = b.data / 256 ^ (4 + 10 * nk) ∧ idx ≤ nk := by
  unfold setOffset at h
  by_cases h0 : idx = 0
  · rw [if_pos h0] at h
    injection h with h
    subst h
    exact ⟨rfl, rfl, rfl, by omega⟩
  · rw [if_neg h0] at h
    simp only [Option.bind_eq_bind] at h
    rw [Option.bind_eq_some] at h
    obtain ⟨pos, hpos, h⟩ := h
    unfold offsetPos at hpos
    simp only [Option.bind_eq_bind, hnk, Option.some_bind] at hpos
    split at hpos
    next hc =>
      injection hpos with hpos
      have hpe : pos = 4 + 8 * nk + 2 * (idx - 1) := by
        rw [← hpos]
        unfold add16 sub16 mul16 HEADER
        omega
      subst hpe
      exact ⟨(putU16_mod 0 h (by omega)).2,
        (putU16_mod (4 + 8 * nk + 2 * (idx - 1)) h (le_refl _)).1,
        putU16_div (4 + 10 * nk) h (by omega), hc.2⟩
    next => exact Option.noConfusion hpos

theorem setOffset_getOffset_self {b b2 : Buf} {idx off nk : Nat}
    (hnk : nkeys b = some nk) (hnk4 : nk ≤ 4096) (h1 : 1 ≤ idx)
    (h : setOffset b idx off = some b2) :
    getOffset b2 idx = some (off % 65536) := by
  unfold setOffset at h
  rw [if_neg (by omega)] at h
  simp only [Option.bind_eq_bind] at h
  rw [Option.bind_eq_some] at h
  obtain ⟨pos, hpos, h⟩ := h
  have hfacts := setOffset_facts hnk hnk4 (by
    unfold setOffset
    rw [if_neg (by omega : ¬ idx = 0)]
    simp only [Option.bind_eq_bind, hpos, Option.some_bind]
    exact h)
  have hnk2 : nkeys b2 = some nk := by
    rw [nkeys_congr (mod_eq_mono hfacts.2.1 (by omega)) hfacts.1, hnk]
  unfold getOffset
  rw [if_neg (by omega)]
  simp only [Option.bind_eq_bind]
  have hpos2 : offsetPos b2 idx = some pos := by
    unfold offsetPos at hpos ⊢
    simp only [Option.bind_eq_bind, hnk, hnk2, Option.some_bind] at hpos ⊢
    exact hpos
  rw [hpos2, Option.some_bind]
  exact getU16_putU16_self h

theorem goCopy_len (dst : Buf) (pos : Nat) (src : Buf) :
    (goCopy dst pos src).len = dst.len := rfl

theorem goCopy_mod (dst src : Buf) {pos k : Nat} (h : k ≤ pos) :
    (goCopy dst pos src).data % 256 ^ k = dst.data % 256 ^ k := by
  unfold goCopy
  simp only
  rw [three_term_mod (pow_dvd_pow 256 h) (pow_dvd_pow 256 (by omega)), mod_pow_mod h]

theorem getOffset_congr_div {a b : Buf} {idx nk m : Nat} (hnka : nkeys a = some nk)
    (hnkb : nkeys b = some nk) (hl : a.len = b.len)
    (hdiv : a.data / 256 ^ m = b.data / 256 ^ m) (hnk4 : nk ≤ 4096)
    (hm : m ≤ 4 + 8 * nk) : getOffset a idx = getOffset b idx := by
  unfold getOffset
  by_cases h0 : idx = 0
  · rw [if_pos h0, if_pos h0]
  · rw [if_neg h0, if_neg h0]
    unfold offsetPos
    simp only [Option.bind_eq_bind, hnka, hnkb, Option.some_bind]
    split
    next hc =>
      simp only [Option.some_bind]
      apply getU16_congr_div hdiv hl
      unfold add16 sub16 mul16 HEADER
      omega
    next => rfl

theorem getOffset_congr_mod {a b : Buf} {idx nk k : Nat} (hnka : nkeys a = some nk)
    (hnkb : nkeys b = some nk) (hl : a.len = b.len)
    (hmod : a.data % 256 ^ k = b.data % 256 ^ k) (hnk4 : nk ≤ 4096)
    (hk : 4 + 8 * nk + 2 * idx ≤ k) (hidx : 1 ≤ idx) :
    getOffset a idx = getOffset b idx := by
  unfold getOffset
  rw [if_neg (by omega), if_neg (by omega)]
  unfold offsetPos
  simp only [Option.bind_eq_bind, hnka, hnkb, Option.some_bind]
  split
  next hc =>
    simp only [Option.some_bind]
    apply getU16_congr hmod hl
    unfold add16 sub16 mul16 HEADER
    omega
  next => rfl

theorem sub16_lt (a b : Nat) : sub16 a b < 65536 := Nat.mod_lt _ (by norm_num)

theorem ptrLoop_facts {old : Buf} {dstNew srcOld nk : Nat} :
    ∀ (r i : Nat) (b b2 : Buf), nkeys b = some nk → nk ≤ 4096 →
      ptrLoop old dstNew srcOld i r b = some b2 →
      b2.len = b.len ∧ b2.data % 256 ^ 4 = b.data % 256 ^ 4 ∧
        b2.data / 256 ^ (4 + 8 * nk) = b.data / 256 ^ (4 + 8 * nk) := by
  intro r
  induction r with
  | zero =>
    intro i b b2 hnk hnk4 h
    unfold ptrLoop at h
    injection h with h
    subst h
    exact ⟨rfl, rfl, rfl⟩
  | succ m ih =>
    intro i b b2 hnk hnk4 h
    rw [ptrLoop] at h
    simp only [Option.bind_eq_bind] at h
    rw [Option.bind_eq_some] at h
    obtain ⟨p, hp, h⟩ := h
    rw [Option.bind_eq_some] at h
    obtain ⟨b1, hb1, h⟩ := h
    have f1 := setPtr_facts hnk hnk4 hb1
    have hnk1 : nkeys b1 = some nk := by
      rw [nkeys_congr f1.2.1 f1.1, hnk]
    have f2 := ih (i + 1) b1 b2 hnk1 hnk4 h
    exact ⟨f2.1.trans f1.1, f2.2.1.trans f1.2.1, f2.2.2.trans f1.2.2.1⟩

theorem offLoop_facts {old : Buf} {d s dB sB nk : Nat} :
    ∀ (r i : Nat) (b b2 : Buf), nkeys b = some nk → nk ≤ 4096 → 1 ≤ d + i →
      d + i + r ≤ 65535 →
      offLoop old d s dB sB i r b = some b2 →
      b2.len = b.len ∧
        b2.data % 256 ^ (4 + 8 * nk + 2 * (d + i - 1)) =
          b.data % 256 ^ (4 + 8 * nk + 2 * (d + i - 1)) ∧
        b2.data / 256 ^ (4 + 10 * nk) = b.data / 256 ^ (4 + 10 * nk) := by
  intro r
  induction r with
  | zero =>
    intro i b b2 hnk hnk4 h1 hb h
    unfold offLoop at h
    injection h with h
    subst h
    exact ⟨rfl, rfl, rfl⟩
  | succ m ih =>
    intro i b b2 hnk hnk4 h1 hb h
    rw [offLoop] at h
    simp only [Option.bind_eq_bind] at h
    rw [Option.bind_eq_some] at h
    obtain ⟨so, hso, h⟩ := h
    rw [Option.bind_eq_some] at h
    obtain ⟨b1, hb1, h⟩ := h
    have haddi : add16 d i = d + i := Nat.mod_eq_of_lt (by omega)
    rw [haddi] at hb1
    have f1 := setOffset_facts hnk hnk4 hb1
    have hnk1 : nkeys b1 = some nk := by
      rw [nkeys_congr (mod_eq_mono f1.2.1 (by omega)) f1.1, hnk]
    have f2 := ih (i + 1) b1 b2 hnk1 hnk4 (by omega) (by omega) h
    refine ⟨f2.1.trans f1.1, ?_, f2.2.2.trans f1.2.2.1⟩
    have hw : d + (i + 1) - 1 = d + i := by omega
    rw [hw] at f2
    exact (mod_eq_mono f2.2.1 (by omega)).trans f1.2.1

theorem offLoop_last {old : Buf} {d s dB sB nk : Nat} :
    ∀ (r i : Nat) (b b2 : Buf), nkeys b = some nk → nk ≤ 4096 → 1 ≤ d + i →
      d + i + r ≤ 65535 → 1 ≤ r →
      offLoop old d s dB sB i r b = some b2 →
      ∃ so, getOffset old (add16 s (i + r - 1)) = some so ∧
        getOffset b2 (d + i + r - 1) = some (sub16 (add16 dB so) sB) := by
  intro r
  induction r with
  | zero => omega
  | succ m ih =>
    intro i b b2 hnk hnk4 h1 hb _ h
    rw [offLoop] at h
    simp only [Option.bind_eq_bind] at h
    rw [Option.bind_eq_some] at h
    obtain ⟨so, hso, h⟩ := h
    rw [Option.bind_eq_some] at h
    obtain ⟨b1, hb1, h⟩ := h
    have haddi : add16 d i = d + i := Nat.mod_eq_of_lt (by omega)
    rw [haddi] at hb1
    have f1 := setOffset_facts hnk hnk4 hb1
    have hnk1 : nkeys b1 = some nk := by
      rw [nkeys_congr (mod_eq_mono f1.2.1 (by omega)) f1.1, hnk]
    cases m with
    | zero =>
      unfold offLoop at h
      injection h with h
      subst h
      refine ⟨so, ?_, ?_⟩
      · have : i + 1 - 1 = i := by omega
        rw [this]
        exact hso
      · have hidx : d + i + 1 - 1 = d + i := by omega
        rw [hidx]
        have := setOffset_getOffset_self hnk hnk4 (by omega) hb1
        rw [this]
        congr 1
        exact Nat.mod_eq_of_lt (sub16_lt _ _)
    | succ p =>
      have f2 := ih (i + 1) b1 b2 hnk1 hnk4 (by omega) (by omega) (by omega) h
      obtain ⟨so2, hso2, hread⟩ := f2
      refine ⟨so2, ?_, ?_⟩
      · have : i + 1 + (p + 1) - 1 = i + (p + 1 + 1) - 1 := by omega
        rw [← this]
        exact hso2
      · have : d + (i + 1) + (p + 1) - 1 = d + i + (p + 1 + 1) - 1 := by omega
        rw [← this]
        exact hread

/-- Header preservation by `nodeAppendRange`: under the page-shaped bounds,
a successful range copy does not touch the first four bytes. -/
theorem nodeAppendRange_facts {newb old out : Buf} {dstNew srcOld n nk off0 : Nat}
    (hnk : nkeys newb = some nk) (hnk4 : nk ≤ 4096)
    (hdn : dstNew ≤ 4096) (hn : n ≤ 4096)
    (hoff : getOffset newb dstNew = some off0) (hoff8 : off0 ≤ 8192)
    (h : nodeAppendRange newb old dstNew srcOld n = some out) :
    out.len = newb.len ∧ out.data % 256 ^ 4 = newb.data % 256 ^ 4 ∧
      nkeys out = some nk ∧ dstNew + n ≤ nk := by
  unfold nodeAppendRange at h
  simp only [Option.bind_eq_bind] at h
  rw [Option.bind_eq_some] at h
  obtain ⟨nko, hnko, h⟩ := h
  rw [hnk] at h
  rw [Option.some_bind] at h
  by_cases hA1 : add16 srcOld n ≤ nko
  case neg => rw [if_neg hA1] at h; exact Option.noConfusion h
  rw [if_pos hA1] at h
  by_cases hA2 : add16 dstNew n ≤ nk
  case neg => rw [if_neg hA2] at h; exact Option.noConfusion h
  rw [if_pos hA2] at h
  have hdnk : dstNew + n ≤ nk := by
    have : add16 dstNew n = dstNew + n := Nat.mod_eq_of_lt (by omega)
    rw [this] at hA2
    exact hA2
  by_cases hn0 : n = 0
  · rw [if_pos hn0] at h
    injection h with h
    subst h
    exact ⟨rfl, rfl, hnk, hdnk⟩
  · rw [if_neg hn0] at h
    rw [Option.bind_eq_some] at h
    obtain ⟨b1, hb1, h⟩ := h
    have f1 := ptrLoop_facts n 0 newb b1 hnk hnk4 hb1
    have hnk1 : nkeys b1 = some nk := by rw [nkeys_congr f1.2.1 f1.1, hnk]
    rw [Option.bind_eq_some] at h
    obtain ⟨dB, hdB, h⟩ := h
    have hdB0 : dB = off0 := by
      rw [getOffset_congr_div hnk1 hnk f1.1 f1.2.2 hnk4 (le_refl _), hoff] at hdB
      injection hdB with hdB
      omega
    subst hdB0
    rw [Option.bind_eq_some] at h
    obtain ⟨sB, hsB, h⟩ := h
    rw [Option.bind_eq_some] at h
    obtain ⟨b2, hb2, h⟩ := h
    have f2 := offLoop_facts n 1 b1 b2 hnk1 hnk4 (by omega) (by omega) hb2
    have hnk2 : nkeys b2 = some nk := by
      rw [nkeys_congr (mod_eq_mono f2.2.1 (by omega)) f2.1, hnk1]
    have hoff2 : getOffset b2 dstNew = some dB := by
      by_cases hd0 : dstNew = 0
      · subst hd0
        unfold getOffset at hdB ⊢
        rw [if_pos rfl] at hdB ⊢
        exact hdB
      · rw [getOffset_congr_mod hnk2 hnk1 f2.1
          (mod_eq_mono f2.2.1 (le_refl _)) hnk4 (by omega) (by omega)]
        exact hdB
    rw [Option.bind_eq_some] at h
    obtain ⟨b0, hb0, h⟩ := h
    rw [Option.bind_eq_some] at h
    obtain ⟨e0, he0, h⟩ := h
    rw [Option.bind_eq_some] at h
    obtain ⟨pos, hpos, h⟩ := h
    have hposv : pos = 4 + 10 * nk + dB := by
      unfold kvPos at hpos
      simp only [Option.bind_eq_bind, hnk2, Option.some_bind] at hpos
      rw [if_pos (by omega), hoff2, Option.some_bind] at hpos
      injection hpos with hpos
      rw [← hpos]
      unfold add16 mul16 HEADER
      omega
    by_cases hB : pos ≤ b2.len ∧ b0 ≤ e0 ∧ e0 ≤ old.len
    case neg => rw [if_neg hB] at h; exact Option.noConfusion h
    rw [if_pos hB] at h
    injection h with h
    subst h
    refine ⟨(goCopy_len _ _ _).trans (f2.1.trans f1.1), ?_, ?_, hdnk⟩
    · calc (goCopy b2 pos _).data % 256 ^ 4
          = b2.data % 256 ^ 4 := goCopy_mod _ _ (by omega)
        _ = b1.data % 256 ^ 4 := mod_eq_mono f2.2.1 (by omega)
        _ = newb.data % 256 ^ 4 := f1.2.1
    · rw [nkeys_congr (goCopy_mod _ _ (by omega : 4 ≤ pos)) (goCopy_len _ _ _), hnk2]

/-- Offset read-back through `nodeAppendRange` from destination index 0:
after copying `n ≥ 1` whole entries to the front of `newb`, the stored
offset at index `n` is exactly the source's offset at index `n`. -/
theorem nodeAppendRange_last0 {newb old out : Buf} {n nk : Nat}
    (hnk : nkeys newb = some nk) (hnk4 : nk ≤ 4096) (hn1 : 1 ≤ n) (hn : n ≤ 4096)
    (h : nodeAppendRange newb old 0 0 n = some out) :
    ∃ so, getOffset old n = some so ∧ getOffset out n = some so := by
  unfold nodeAppendRange at h
  simp only [Option.bind_eq_bind] at h
  rw [Option.bind_eq_some] at h
  obtain ⟨nko, hnko, h⟩ := h
  rw [hnk] at h
  rw [Option.some_bind] at h
  by_cases hA1 : add16 0 n ≤ nko
  case neg => rw [if_neg hA1] at h; exact Option.noConfusion h
  rw [if_pos hA1] at h
  by_cases hA2 : add16 0 n ≤ nk
  case neg => rw [if_neg hA2] at h; exact Option.noConfusion h
  rw [if_pos hA2] at h
  have haddn : add16 0 n = n := by unfold add16; omega
  rw [if_neg (by omega : ¬ n = 0)] at h
  rw [Option.bind_eq_some] at h
  obtain ⟨b1, hb1, h⟩ := h
  have f1 := ptrLoop_facts n 0 newb b1 hnk hnk4 hb1
  have hnk1 : nkeys b1 = some nk := by rw [nkeys_congr f1.2.1 f1.1, hnk]
  rw [Option.bind_eq_some] at h
  obtain ⟨dB, hdB, h⟩ := h
  have hdB0 : dB = 0 := by
    unfold getOffset at hdB
    rw [if_pos rfl] at hdB
    injection hdB with hdB
    omega
  subst hdB0
  rw [Option.bind_eq_some] at h
  obtain ⟨sB, hsB, h⟩ := h
  have hsB0 : sB = 0 := by
    unfold getOffset at hsB
    rw [if_pos rfl] at hsB
    injection hsB with hsB
    omega
  subst hsB0
  rw [Option.bind_eq_some] at h
  obtain ⟨b2, hb2, h⟩ := h
  have f2 := offLoop_facts n 1 b1 b2 hnk1 hnk4 (by omega) (by omega) hb2
  have hnk2 : nkeys b2 = some nk := by
    rw [nkeys_congr (mod_eq_mono f2.2.1 (by omega)) f2.1, hnk1]
  obtain ⟨so, hso, hread⟩ := offLoop_last n 1 b1 b2 hnk1 hnk4 (by omega)
    (by omega) (by omega) hb2
  have hso2 : getOffset old (add16 0 (1 + n - 1)) = getOffset old n := by
    congr 1
    unfold add16
    omega
  rw [hso2] at hso
  have hread2 : getOffset b2 n = some (sub16 (add16 0 so) 0) := by
    have : 0 + 1 + n - 1 = n := by omega
    rw [← this]
    exact hread
  have hsolt : so < 65536 := by
    unfold getOffset at hso
    rw [if_neg (by omega)] at hso
    simp only [Option.bind_eq_bind] at hso
    rw [Option.bind_eq_some] at hso
    obtain ⟨pp, _, hso⟩ := hso
    exact getU16_lt hso
  have hval : sub16 (add16 0 so) 0 = so := by
    unfold add16 sub16
    omega
  rw [hval] at hread2
  rw [Option.bind_eq_some] at h
  obtain ⟨b0, hb0, h⟩ := h
  rw [Option.bind_eq_some] at h
  obtain ⟨e0, he0, h⟩ := h
  rw [Option.bind_eq_some] at h
  obtain ⟨pos, hpos, h⟩ := h
  have hposv : pos = 4 + 10 * nk := by
    unfold kvPos at hpos
    simp only [Option.bind_eq_bind, hnk2, Option.some_bind] at hpos
    rw [if_pos (Nat.zero_le nk)] at hpos
    have h00 : getOffset b2 0 = some 0 := rfl
    rw [h00, Option.some_bind] at hpos
    rw [Option.some.injEq] at hpos
    rw [← hpos]
    unfold add16 mul16 HEADER
    omega
  by_cases hB : pos ≤ b2.len ∧ b0 ≤ e0 ∧ e0 ≤ old.len
  case neg => rw [if_neg hB] at h; exact Option.noConfusion h
  rw [if_pos hB] at h
  injection h with h
  subst h
  refine ⟨so, hso, ?_⟩
  rw [haddn] at hA2
  rw [getOffset_congr_mod (by
      rw [nkeys_congr (goCopy_mod _ _ (by omega : 4 ≤ pos)) (goCopy_len _ _ _), hnk2])
    hnk2 (goCopy_len _ _ _) (goCopy_mod _ _ (by omega : 4 + 8 * nk + 2 * n ≤ pos))
    hnk4 (le_refl _) (by omega)]
  exact hread2

/-- C10: `nodeMerge` marks the merged node as an internal node
(`BNODE_NODE`) regardless of the kinds of its two inputs — in particular a
merge of two sibling leaves yields a node whose header says internal, not
leaf.  The hypotheses bound the inputs by the page shape (`nkeys` totals at
most 409 entries — a page holds at most (4096-4)/10 entries — and the left
node's final stored offset is at most a page), which every node handed to
`nodeMerge` by `nodeDelete` satisfies. -/
theorem nodeMerge_kind {l r m : Buf} {ln rn lv : Nat}
    (hln : nkeys l = some ln) (hrn : nkeys r = some rn)
    (hb : ln + rn ≤ 409) (hlv : getOffset l ln = some lv) (hlv4 : lv ≤ 4096)
    (h : nodeMerge (bufZeros BTREE_PAGE_SIZE) l r = some m) :
    btype m = some BNODE_NODE := by
  unfold nodeMerge at h
  simp only [Option.bind_eq_bind, hln, hrn, Option.some_bind] at h
  rw [Option.bind_eq_some] at h
  obtain ⟨b1, hb1, h⟩ := h
  rw [Option.bind_eq_some] at h
  obtain ⟨b2, hb2, h⟩ := h
  have hsh := setHeader_facts hb1
  have hnkv : add16 ln rn % 65536 = ln + rn := by unfold add16; omega
  have hnk1 : nkeys b1 = some (ln + rn) := by rw [hsh.2.2.1, hnkv]
  have hoff1 : getOffset b1 0 = some 0 := rfl
  have f1 := nodeAppendRange_facts hnk1 (by omega) (by omega) (by omega) hoff1
    (by omega) hb2
  have hoff2 : getOffset b2 ln = some lv := by
    by_cases hln0 : ln = 0
    · subst hln0
      have : getOffset b2 0 = some 0 := rfl
      rw [this]
      rw [← hlv]
      exact (rfl : getOffset l 0 = some 0).symm ▸ rfl
    · obtain ⟨so, hso, hread⟩ := nodeAppendRange_last0 hnk1 (by omega)
        (by omega) (by omega) hb2
      rw [hso] at hlv
      rw [Option.some.injEq] at hlv
      rw [hread, hlv]
  have f2 := nodeAppendRange_facts f1.2.2.1 (by omega) (by omega) (by omega)
    hoff2 (by omega) h
  calc btype m = btype b2 := btype_congr f2.2.1 f2.1
    _ = btype b1 := btype_congr f1.2.1 f1.1
    _ = some BNODE_NODE := by
        rw [hsh.2.1]
        congr 1

theorem getOffset0 (b : Buf) : getOffset b 0 = some 0 := rfl

theorem nodeSplit2_facts {lbuf rbuf old l r : Buf} {t n : Nat}
    (hto : btype old = some t) (hnk : nkeys old = some n) (hn4 : n ≤ 4096)
    (h : nodeSplit2 lbuf rbuf old = some (l, r)) :
    btype l = some t ∧ nkeys l = some (n - n / 2) ∧ l.len = lbuf.len ∧
      btype r = some t ∧ nkeys r = some (n / 2) ∧ r.len = rbuf.len := by
  have ht16 : t < 65536 := getU16_lt hto
  unfold nodeSplit2 at h
  simp only [Option.bind_eq_bind] at h
  rw [Option.bind_eq_some] at h
  obtain ⟨ob, hob, h⟩ := h
  by_cases hbig : ob > BTREE_PAGE_SIZE
  case neg => rw [if_neg hbig] at h; exact Option.noConfusion h
  rw [if_pos hbig] at h
  rw [hnk] at h
  rw [Option.some_bind] at h
  rw [hto] at h
  simp only [Option.some_bind] at h
  rw [Option.bind_eq_some] at h
  obtain ⟨l1, hl1, h⟩ := h
  rw [Option.bind_eq_some] at h
  obtain ⟨r1, hr1, h⟩ := h
  rw [Option.bind_eq_some] at h
  obtain ⟨l2, hl2, h⟩ := h
  rw [Option.bind_eq_some] at h
  obtain ⟨r2, hr2, h⟩ := h
  rw [Option.some.injEq, Prod.mk.injEq] at h
  obtain ⟨hl, hr⟩ := h
  subst hl
  subst hr
  have hsub : sub16 n (n / 2) = n - n / 2 := by unfold sub16; omega
  rw [hsub] at hl1
  have hshl := setHeader_facts hl1
  have hshr := setHeader_facts hr1
  have hnkl1 : nkeys l1 = some (n - n / 2) := by
    rw [hshl.2.2.1]
    congr 1
    omega
  have hnkr1 : nkeys r1 = some (n / 2) := by
    rw [hshr.2.2.1]
    congr 1
    omega
  have fl := nodeAppendRange_facts hnkl1 (by omega) (by omega) (by omega)
    (getOffset0 l1) (by omega) hl2
  have fr := nodeAppendRange_facts hnkr1 (by omega) (by omega) (by omega)
    (getOffset0 r1) (by omega) hr2
  refine ⟨?_, fl.2.2.1, fl.1.trans hshl.1, ?_, fr.2.2.1, fr.1.trans hshr.1⟩
  · rw [btype_congr fl.2.1 fl.1, hshl.2.1]
    congr 1
    omega
  · rw [btype_congr fr.2.1 fr.1, hshr.2.1]
    congr 1
    omega

theorem slice_mod (b : Buf) (nn : Nat) :
    (bufSlice b 0 nn).data % 256 ^ nn = b.data % 256 ^ nn := by
  unfold bufSlice
  simp only [pow_zero, Nat.div_one]
  exact Nat.mod_mod_of_dvd _ (dvd_refl _)

theorem btype_slice {b : Buf} (hl : 2 ≤ b.len) :
    btype (bufSlice b 0 BTREE_PAGE_SIZE) = btype b := by
  unfold btype getU16
  rw [byteAt_eq_of_mod_eq (slice_mod b BTREE_PAGE_SIZE) (by norm_num [BTREE_PAGE_SIZE]),
    byteAt_eq_of_mod_eq (slice_mod b BTREE_PAGE_SIZE) (by norm_num [BTREE_PAGE_SIZE])]
  rw [if_pos (by norm_num [bufSlice, BTREE_PAGE_SIZE] :
      0 + 2 ≤ (bufSlice b 0 BTREE_PAGE_SIZE).len), if_pos (by omega : 0 + 2 ≤ b.len)]

theorem nkeys_slice {b : Buf} (hl : 4 ≤ b.len) :
    nkeys (bufSlice b 0 BTREE_PAGE_SIZE) = nkeys b := by
  unfold nkeys getU16
  rw [byteAt_eq_of_mod_eq (slice_mod b BTREE_PAGE_SIZE) (by norm_num [BTREE_PAGE_SIZE]),
    byteAt_eq_of_mod_eq (slice_mod b BTREE_PAGE_SIZE) (by norm_num [BTREE_PAGE_SIZE])]
  rw [if_pos (by norm_num [bufSlice, BTREE_PAGE_SIZE] :
      2 + 2 ≤ (bufSlice b 0 BTREE_PAGE_SIZE).len), if_pos (by omega : 2 + 2 ≤ b.len)]

/-- C5 amended: `nodeSplit3` keeps a fitting node as the sole output
(truncated to its first `BTREE_PAGE_SIZE` bytes, which is all Go keeps of
the page buffer), and otherwise returns 2 or 3 nodes, each preserving the
input's node kind, with the first split taking `rightCount = keyCount/2`
and `leftCount = keyCount - rightCount` (a second split, when needed,
splits the left half by the same rule).  No bound `≤ BTREE_PAGE_SIZE` on
the outputs' encoded sizes is guaranteed (see the counterexample). -/
theorem nodeSplit3_spec :
    (∀ old s, nbytes old = some s → s ≤ BTREE_PAGE_SIZE → BTREE_PAGE_SIZE ≤ old.len →
      nodeSplit3 old = some (1, [bufSlice old 0 BTREE_PAGE_SIZE])) ∧
    (∀ old s t n k outs, nbytes old = some s → BTREE_PAGE_SIZE < s →
      btype old = some t → nkeys old = some n → n ≤ 409 →
      nodeSplit3 old = some (k, outs) →
      (k = 2 ∨ k = 3) ∧ (∀ o ∈ outs, btype o = some t) ∧
      (k = 2 → List.map nkeys outs = [some (n - n / 2), some (n / 2)]) ∧
      (k = 3 → List.map nkeys outs =
        [some (n - n / 2 - (n - n / 2) / 2), some ((n - n / 2) / 2), some (n / 2)])) := by
  constructor
  · intro old s hs hle hlen
    unfold nodeSplit3
    simp only [Option.bind_eq_bind, hs, Option.some_bind]
    rw [if_pos hle, if_pos hlen]
  · intro old s t n k outs hs hbig hto hnk hn hsplit
    unfold nodeSplit3 at hsplit
    simp only [Option.bind_eq_bind, hs, Option.some_bind] at hsplit
    rw [if_neg (by omega)] at hsplit
    rw [Option.bind_eq_some] at hsplit
    obtain ⟨lr, hlr, hsplit⟩ := hsplit
    obtain ⟨l, r⟩ := lr
    have f1 := nodeSplit2_facts hto hnk (by omega) hlr
    have hllen : l.len = 2 * BTREE_PAGE_SIZE := f1.2.2.1
    have hrlen : r.len = BTREE_PAGE_SIZE := f1.2.2.2.2.2
    rw [Option.bind_eq_some] at hsplit
    obtain ⟨lb, hlb, hsplit⟩ := hsplit
    by_cases hfit : lb ≤ BTREE_PAGE_SIZE
    · rw [if_pos hfit] at hsplit
      rw [if_pos (by rw [hllen]; norm_num [BTREE_PAGE_SIZE])] at hsplit
      rw [Option.some.injEq, Prod.mk.injEq] at hsplit
      obtain ⟨hk, houts⟩ := hsplit
      subst hk
      subst houts
      refine ⟨Or.inl rfl, ?_, ?_, by omega⟩
      · intro o ho
        rcases List.mem_cons.mp ho with rfl | ho2
        · rw [btype_slice (by rw [hllen]; norm_num [BTREE_PAGE_SIZE])]
          exact f1.1
        · rcases List.mem_cons.mp ho2 with rfl | ho3
          · exact f1.2.2.2.1
          · exact absurd ho3 (List.not_mem_nil o)
      · intro _
        simp only [List.map_cons, List.map_nil]
        rw [nkeys_slice (by rw [hllen]; norm_num [BTREE_PAGE_SIZE])]
        rw [f1.2.1, f1.2.2.2.2.1]
    · rw [if_neg hfit] at hsplit
      rw [Option.bind_eq_some] at hsplit
      obtain ⟨ab, hab, hsplit⟩ := hsplit
      obtain ⟨a, b⟩ := ab
      have f2 := nodeSplit2_facts f1.1 f1.2.1 (by omega) hab
      rw [Option.bind_eq_some] at hsplit
      obtain ⟨asz, hasz, hsplit⟩ := hsplit
      by_cases hfita : asz ≤ BTREE_PAGE_SIZE
      · rw [if_pos hfita] at hsplit
        rw [Option.some.injEq, Prod.mk.injEq] at hsplit
        obtain ⟨hk, houts⟩ := hsplit
        subst hk
        subst houts
        refine ⟨Or.inr rfl, ?_, by omega, ?_⟩
        · intro o ho
          rcases List.mem_cons.mp ho with rfl | ho2
          · exact f2.1
          · rcases List.mem_cons.mp ho2 with rfl | ho3
            · exact f2.2.2.2.1
            · rcases List.mem_cons.mp ho3 with rfl | ho4
              · exact f1.2.2.2.1
              · exact absurd ho4 (List.not_mem_nil o)
        · intro _
          simp only [List.map_cons, List.map_nil]
          rw [f2.2.1, f2.2.2.2.2.1, f1.2.2.2.2.1]
      · rw [if_neg hfita] at hsplit
        exact Option.noConfusion hsplit

theorem nodeMerge_kind_witness :
    btype P2 = some BNODE_LEAF ∧ btype updLeaf = some BNODE_LEAF ∧
      btype mergedW = some BNODE_NODE :=
  ⟨by decide, by decide,
    @nodeMerge_kind P2 updLeaf mergedW 3 1 16
      (by decide) (by decide) (by decide) (by decide) (by decide) (by decide)⟩

theorem nodeSplit3_spec_witness :
    nodeSplit3 P2 = some (1, [bufSlice P2 0 BTREE_PAGE_SIZE]) :=
  nodeSplit3_spec.1 P2 50 (by decide) (by decide) (by decide)

end Btree
